import Mathlib

/-!
Verification development for the `zss_json` repository: a tree-error-rate
metric over labeled ordered trees built from nested JSON-like data, with a
Zhang–Shasha tree-edit-distance engine generalized by a CER-weighted relabel
cost (`src/ted_cer.py`, `src/zss_json.py`).

Python floats are embedded as exact rationals (`ℚ`): every cost actually
produced by the repository's cost models is rational, and the specification
demands exact (rational) equalities.  Python's `None` tree is embedded as
`Option Node := none`; Python exceptions are embedded with `Except`.

Indexing convention: the annotated tree is modelled with 1-based postorder
indices and a sentinel position 0 (the specification's stated convention for
`AnnotatedTree`), so `nodes`/`lmds` are consulted through total accessors
that return a dummy value at index 0 and out of range.
-/

namespace ZssJson

/-- A generic nested value as produced by an external JSON deserializer:
a mapping (association list, preserving insertion order), an ordered
sequence, or a terminal scalar (embedded as its text). -/
inductive JVal where
  | str : String → JVal
  | arr : List JVal → JVal
  | obj : List (String × JVal) → JVal
deriving Repr

mutual

def deqJVal : (a b : JVal) → Decidable (a = b)
  | .str a, .str b =>
    match String.decEq a b with
    | isTrue h => isTrue (congrArg JVal.str h)
    | isFalse h => isFalse (fun hh => h (JVal.str.inj hh))
  | .str _, .arr _ => isFalse (fun h => JVal.noConfusion h)
  | .str _, .obj _ => isFalse (fun h => JVal.noConfusion h)
  | .arr _, .str _ => isFalse (fun h => JVal.noConfusion h)
  | .arr xs, .arr ys =>
    match deqJValList xs ys with
    | isTrue h => isTrue (congrArg JVal.arr h)
    | isFalse h => isFalse (fun hh => h (JVal.arr.inj hh))
  | .arr _, .obj _ => isFalse (fun h => JVal.noConfusion h)
  | .obj _, .str _ => isFalse (fun h => JVal.noConfusion h)
  | .obj _, .arr _ => isFalse (fun h => JVal.noConfusion h)
  | .obj xs, .obj ys =>
    match deqJValKVList xs ys with
    | isTrue h => isTrue (congrArg JVal.obj h)
    | isFalse h => isFalse (fun hh => h (JVal.obj.inj hh))

def deqJValList : (a b : List JVal) → Decidable (a = b)
  | [], [] => isTrue rfl
  | [], _ :: _ => isFalse (fun h => List.noConfusion h)
  | _ :: _, [] => isFalse (fun h => List.noConfusion h)
  | x :: xs, y :: ys =>
    match deqJVal x y, deqJValList xs ys with
    | isTrue h1, isTrue h2 => isTrue (by rw [h1, h2])
    | isFalse h1, _ => isFalse (fun hh => h1 (List.head_eq_of_cons_eq hh))
    | _, isFalse h2 => isFalse (fun hh => h2 (List.tail_eq_of_cons_eq hh))

def deqJValKVList : (a b : List (String × JVal)) → Decidable (a = b)
  | [], [] => isTrue rfl
  | [], _ :: _ => isFalse (fun h => List.noConfusion h)
  | _ :: _, [] => isFalse (fun h => List.noConfusion h)
  | (k1, v1) :: xs, (k2, v2) :: ys =>
    match String.decEq k1 k2, deqJVal v1 v2, deqJValKVList xs ys with
    | isTrue h1, isTrue h2, isTrue h3 => isTrue (by rw [h1, h2, h3])
    | isFalse h1, _, _ =>
      isFalse (fun hh => h1 (congrArg Prod.fst (List.head_eq_of_cons_eq hh)))
    | _, isFalse h2, _ =>
      isFalse (fun hh => h2 (congrArg Prod.snd (List.head_eq_of_cons_eq hh)))
    | _, _, isFalse h3 => isFalse (fun hh => h3 (List.tail_eq_of_cons_eq hh))

end

instance : DecidableEq JVal := deqJVal

/-- The zss `Node`: an ordered labeled tree.  The label is a `JVal` because
the Python code can construct `Node(child)` from any nested value (for
example a list element that is itself a list becomes a leaf labeled by that
whole list). -/
inductive Node where
  | mk : JVal → List Node → Node
deriving Repr

mutual

def deqNode : (a b : Node) → Decidable (a = b)
  | .mk l1 cs1, .mk l2 cs2 =>
    match deqJVal l1 l2, deqNodeList cs1 cs2 with
    | isTrue h1, isTrue h2 => isTrue (by rw [h1, h2])
    | isFalse h1, _ => isFalse (fun hh => h1 (Node.mk.inj hh).1)
    | _, isFalse h2 => isFalse (fun hh => h2 (Node.mk.inj hh).2)

def deqNodeList : (a b : List Node) → Decidable (a = b)
  | [], [] => isTrue rfl
  | [], _ :: _ => isFalse (fun h => List.noConfusion h)
  | _ :: _, [] => isFalse (fun h => List.noConfusion h)
  | x :: xs, y :: ys =>
    match deqNode x y, deqNodeList xs ys with
    | isTrue h1, isTrue h2 => isTrue (by rw [h1, h2])
    | isFalse h1, _ => isFalse (fun hh => h1 (List.head_eq_of_cons_eq hh))
    | _, isFalse h2 => isFalse (fun hh => h2 (List.tail_eq_of_cons_eq hh))

end

instance : DecidableEq Node := deqNode

/-- Label accessor (`Node.get_label` / `node.label`). -/
def Node.label : Node → JVal
  | .mk l _ => l

/-- Children accessor (`Node.get_children` / `node.children`). -/
def Node.children : Node → List Node
  | .mk _ cs => cs

mutual

/-- Number of nodes of a tree (`count_nodes` on a non-`None` root in
`src/zss_json.py` lines 64–79: `1 + sum(count_nodes(child) ...)`). -/
def countNode : Node → Nat
  | .mk _ cs => 1 + countForest cs

/-- Sum of `countNode` over a list of children. -/
def countForest : List Node → Nat
  | [] => 0
  | c :: cs => countNode c + countForest cs

end

/-- `count_nodes` including the `None` case (`src/zss_json.py` line 77:
`if node is None: return 0`). -/
def count_nodes : Option Node → Nat
  | none => 0
  | some t => countNode t

mutual

/-- Children produced for a nested value, as built by the stack loop of
`json_to_tree` (`src/zss_json.py` lines 42–59).  The Python loop pops
`(parent, children)` pairs off a stack and appends all of `parent`'s kids
during that single pop, in input iteration order; the stack discipline only
defers the descent into grandchildren and never interleaves two parents'
child lists, so the loop is embedded as this recursion. -/
def buildChildren : JVal → List Node
  | .arr xs => buildArr xs
  | .obj kvs => buildObj kvs
  | .str s => [Node.mk (.str s) []]

/-- List case of the loop (lines 44–52): a mapping element expands into one
child per key (pushed for further processing); any other element becomes a
single leaf labeled by that element (`parent.addkid(Node(child))`), with its
contents not descended into. -/
def buildArr : List JVal → List Node
  | [] => []
  | .obj kvs :: cs => buildObj kvs ++ buildArr cs
  | .arr ys :: cs => Node.mk (.arr ys) [] :: buildArr cs
  | .str s :: cs => Node.mk (.str s) [] :: buildArr cs

/-- Mapping case of the loop (lines 53–57): every key becomes a child node
labeled by the key, recursively holding its value's nodes. -/
def buildObj : List (String × JVal) → List Node
  | [] => []
  | (k, v) :: rest => Node.mk (.str k) (buildChildren v) :: buildObj rest

end

/-- `json_to_tree` (`src/zss_json.py` lines 20–61): a mapping at the root
contributes only its first key as the root node (the loop over `items()`
breaks after one iteration, line 40); an empty mapping or a non-mapping
leaves `root = None`. -/
def json_to_tree : JVal → Option Node
  | .obj ((k, v) :: _) => some (Node.mk (.str k) (buildChildren v))
  | _ => none

mutual

/-- The children policy of the Tree Builder as worded in the spec (§4.4),
written independently of `buildChildren` for comparison: a terminal scalar
becomes a single leaf child; every key of a non-root mapping becomes a
child labeled by the key, recursively holding its value's nodes; each
element of a sequence contributes direct children of the current parent in
positional order. -/
def specChildren : JVal → List Node
  | .str s => [Node.mk (.str s) []]
  | .obj kvs => specObj kvs
  | .arr xs => specArr xs

/-- Sequence elements per the spec's words: a mapping element expands into
one child node per key (flattened into the parent); a scalar element
becomes a single leaf child labeled by that scalar.  The spec does not
describe a sequence element that is itself a sequence; such an element is
skipped here and excluded by hypothesis where this definition is used. -/
def specArr : List JVal → List Node
  | [] => []
  | .obj kvs :: cs => specObj kvs ++ specArr cs
  | .str s :: cs => Node.mk (.str s) [] :: specArr cs
  | .arr _ :: cs => specArr cs

/-- Mapping entries per the spec's words: one child per key, in insertion
order. -/
def specObj : List (String × JVal) → List Node
  | [] => []
  | (k, v) :: rest => Node.mk (.str k) (specChildren v) :: specObj rest

end

mutual

/-- `true` when no sequence occurs directly as an element of a sequence
anywhere inside the value (the only nested-value shape whose child policy
the spec's §4.4 does not describe). -/
def arrFreeVal : JVal → Bool
  | .str _ => true
  | .obj kvs => arrFreeObj kvs
  | .arr xs => arrFreeArr xs

/-- `arrFreeVal` over the elements of a sequence: no element may itself be
a sequence. -/
def arrFreeArr : List JVal → Bool
  | [] => true
  | .arr _ :: _ => false
  | .obj kvs :: cs => arrFreeObj kvs && arrFreeArr cs
  | .str _ :: cs => arrFreeArr cs

/-- `arrFreeVal` over the values of a mapping. -/
def arrFreeObj : List (String × JVal) → Bool
  | [] => true
  | (_, v) :: rest => arrFreeVal v && arrFreeObj rest

end

mutual

/-- Postorder node sequence of a tree: all descendants before the node. -/
def postorderNode : Node → List Node
  | .mk l cs => postorderForest cs ++ [Node.mk l cs]

/-- Postorder node sequence of a forest, left to right. -/
def postorderForest : List Node → List Node
  | [] => []
  | c :: cs => postorderNode c ++ postorderForest cs

end

mutual

/-- Left-most-descendant table of a tree whose postorder indices start at
`start`: the entry for each node is the postorder index of its left-most
leaf descendant, which is the first postorder index of its subtree. -/
def lmdsNode : Nat → Node → List Nat
  | start, .mk _ cs => lmdsForest start cs ++ [start]

/-- Left-most-descendant table of a forest whose postorder indices start at
`start`. -/
def lmdsForest : Nat → List Node → List Nat
  | _, [] => []
  | start, c :: cs => lmdsNode start c ++ lmdsForest (start + countNode c) cs

end

/-- Keyroots: the ascending list of postorder indices `i` in `1..sz` such
that no later index `j > i` shares `i`'s left-most descendant (the root and
every node with a left sibling).  `lm` is the 1-based lmd table (entry for
index `i` at list position `i - 1`). -/
def keyrootsOf (lm : List Nat) (sz : Nat) : List Nat :=
  (List.range (sz + 1)).filter (fun i =>
    decide (0 < i) &&
      (List.range' (i + 1) (sz - i)).all (fun j =>
        decide (lm.getD (j - 1) 0 ≠ lm.getD (i - 1) 0)))

/-- Modelled from the spec: the zss `AnnotatedTree` (the Tree Annotator of
§3/§4.1, not present under `src/`): the postorder node sequence, the
left-most-descendant table and the keyroot set of one tree, with 1-based
postorder indices and a sentinel position 0. -/
structure AnnT where
  size : Nat
  nodes : List Node
  lmds : List Nat
  krs : List Nat

/-- A dummy node returned by accessors at the sentinel index 0 (never the
underlying node of any in-range index). -/
def dummyNode : Node := Node.mk (.str "") []

/-- `A.nodes[i]` for a 1-based postorder index `i`. -/
def AnnT.node (A : AnnT) (i : Nat) : Node := A.nodes.getD (i - 1) dummyNode

/-- `A.lmds[i]` for a 1-based postorder index `i`. -/
def AnnT.lmd (A : AnnT) (i : Nat) : Nat := A.lmds.getD (i - 1) 0

/-- Modelled from the spec: annotation of one tree (`AnnotatedTree(root,
get_children)` with `get_children = Node.get_children`). -/
def mkAnnT (t : Node) : AnnT :=
  { size := countNode t
    nodes := postorderNode t
    lmds := lmdsNode 1 t
    krs := keyrootsOf (lmdsNode 1 t) (countNode t) }

/-- Structural invariant of a left-most-descendant table whose postorder
indices start at `start` (absolute index of list position `a` is
`start + a`): every entry lies between `start` and its own index, and a
later entry is either at most an earlier entry or beyond the earlier
entry's index (no left-most descendant points strictly inside an earlier
node's subtree from outside it). -/
def lmdsInv (start : Nat) (L : List Nat) : Prop :=
  (∀ a, a < L.length → start ≤ L.getD a 0 ∧ L.getD a 0 ≤ start + a)
  ∧ (∀ a b, a < b → b < L.length →
      L.getD b 0 ≤ L.getD a 0 ∨ start + a < L.getD b 0)

/-- The canonical keyroot above a postorder index `k`: the largest index of
`1..size` sharing `k`'s left-most descendant.  (Such an index has no later
index with the same left-most descendant, hence is a keyroot.) -/
def krOf (T : AnnT) (k : Nat) : Nat :=
  Nat.findGreatest (fun m => k ≤ m ∧ T.lmd m = T.lmd k) T.size

/-- One edit operation kind (`zss.Operation`): remove, insert, update or
match. -/
inductive OpKind where
  | rm : OpKind
  | ins : OpKind
  | upd : OpKind
  | mtch : OpKind
deriving DecidableEq, Repr

/-- One edit operation with its arguments (`Operation(type, arg1, arg2)`). -/
structure EditOp where
  kind : OpKind
  arg1 : Option Node
  arg2 : Option Node
deriving Repr

instance : DecidableEq EditOp := fun a b =>
  match a, b with
  | ⟨k1, x1, y1⟩, ⟨k2, x2, y2⟩ =>
    match decEq k1 k2, decEq x1 x2, decEq y1 y2 with
    | isTrue h1, isTrue h2, isTrue h3 => isTrue (by rw [h1, h2, h3])
    | isFalse h1, _, _ => isFalse (fun hh => h1 (congrArg EditOp.kind hh))
    | _, isFalse h2, _ => isFalse (fun hh => h2 (congrArg EditOp.arg1 hh))
    | _, _, isFalse h3 => isFalse (fun hh => h3 (congrArg EditOp.arg2 hh))

/-- The pluggable cost model: `insert_cost`, `remove_cost`, `update_cost`
(§3 of the spec; parameters of `distance_with_cer`). -/
structure CostModel where
  insertCost : Node → ℚ
  removeCost : Node → ℚ
  updateCost : Node → Node → ℚ

/-- Python's binary `min` on two rationals (the first argument on ties);
definitionally `if a ≤ b then a else b`, which agrees with `min`. -/
def pymin (a b : ℚ) : ℚ := if a ≤ b then a else b

/-- Exact rational addition (Python float `+` on the exact rationals this
embedding uses), expressed through `mkRat` on numerators and denominators;
`qadd_eq_add` identifies it with `+`. -/
def qadd (a b : ℚ) : ℚ := mkRat (a.num * b.den + b.num * a.den) (a.den * b.den)

/-- Exact rational multiplication (Python float `*` on exact rationals);
`qmul_eq_mul` identifies it with `*`. -/
def qmul (a b : ℚ) : ℚ := mkRat (a.num * b.num) (a.den * b.den)

/-- The CER-weighted relabel cost of `src/ted_cer.py` lines 104–109: a node
pair with strictly positive base update cost is weighted by the label
dissimilarity clamped to at most 1 (`cer = min(cer, 1)`); otherwise the base
update cost is used unchanged (so an already-zero cost stays zero and the
weighting is skipped).  `cer` is the external `jiwer.cer` primitive on
labels, an injectable parameter of the model. -/
def relabelCost (cm : CostModel) (cer : JVal → JVal → ℚ) (n1 n2 : Node) : ℚ :=
  if 0 < cm.updateCost n1 n2 then
    qmul (cm.updateCost n1 n2) (pymin (cer n1.label n2.label) 1)
  else
    cm.updateCost n1 n2

/-- The per-pair costs as consumed by the distance engine's recurrence:
insert, remove, and the already-resolved relabel cost placed on the diagonal
branch (for `distance_with_cer` this is `relabelCost`). -/
structure EngineCosts where
  ins : Node → ℚ
  rem : Node → ℚ
  rel : Node → Node → ℚ

/-- One DP cell: the accumulated cost together with the operation list
reaching it (Python keeps `fd`/`treedists` and `partial_ops`/`operations` as
two parallel tables written in the same places; they are paired here). -/
abbrev Cell : Type := ℚ × List EditOp

/-- The zero cell: Python preallocates both tables with `0.0` and `[]`, so a
position read before being written yields this value. -/
def cell0 : Cell := (0, [])

/-- The `treedists`/`operations` pair, sized `(size_a + 1) × (size_b + 1)`
(postorder indices `0..size` with the sentinel row/column 0). -/
abbrev TdTable : Type := List (List Cell)

/-- Read `treedists[a][b]` (paired with `operations[a][b]`). -/
def tdGet (td : TdTable) (a b : Nat) : Cell := (td.getD a []).getD b cell0

/-- Write `treedists[a][b]` and `operations[a][b]`. -/
def tdSet (td : TdTable) (a b : Nat) (c : Cell) : TdTable :=
  td.set a ((td.getD a []).set b c)

/-- Read `fd[x][y]` (paired with `partial_ops[x][y]`) from the list of rows
built so far; a not-yet-built position reads the preallocated `cell0`,
exactly like the Python zero-filled tables. -/
def look (rows : List (List Cell)) (x y : Nat) : Cell :=
  (rows.getD x []).getD y cell0

/-- Python's `min(costs)` for a nonempty cost list (left fold of binary
`min`). -/
def listMin : List ℚ → ℚ
  | [] => 0
  | a :: rest => rest.foldl pymin a

/-- Python's `costs.index(v)`: the first position holding `v`. -/
def listIdx (l : List ℚ) (v : ℚ) : Nat := l.findIdx (fun x => decide (x = v))

/-- The remove operation appended for node `n1` (`Operation(REMOVE, node)`). -/
def remOp (n1 : Node) : EditOp := ⟨.rm, some n1, none⟩

/-- The insert operation appended for node `n2`
(`Operation(INSERT, arg2=node)`). -/
def insOp (n2 : Node) : EditOp := ⟨.ins, none, some n2⟩

/-- A same-lineage cell of the forest-distance recurrence
(`src/ted_cer.py` lines 96–129): the minimum of the remove, insert and
relabel branches, with `costs.index` tie-breaking for the recorded
operation, and `MATCH` exactly when the cell value equals the diagonal
predecessor's value. -/
def sameCell (ec : EngineCosts) (n1 n2 : Node) (cl cu cd : Cell) : Cell :=
  let costs := [qadd cl.1 (ec.rem n1), qadd cu.1 (ec.ins n2),
    qadd cd.1 (ec.rel n1 n2)]
  let v := listMin costs
  let k := listIdx costs v
  if k = 0 then (v, cl.2 ++ [remOp n1])
  else if k = 1 then (v, cu.2 ++ [insOp n2])
  else (v, cd.2 ++ [⟨if v = cd.1 then .mtch else .upd, some n1, some n2⟩])

/-- A subtree-reuse cell of the recurrence (`src/ted_cer.py` lines 130–152):
the third branch adds the memoized whole-tree distance `treedists[x+ioff]
[y+joff]` (with its operation list) to the forest distance at the subtree
boundary `fd[p][q]`, with the same `costs.index` tie-breaking. -/
def elseCell (ec : EngineCosts) (n1 n2 : Node) (cl cu cpq ctd : Cell) : Cell :=
  let costs := [qadd cl.1 (ec.rem n1), qadd cu.1 (ec.ins n2),
    qadd cpq.1 ctd.1]
  let v := listMin costs
  let k := listIdx costs v
  if k = 0 then (v, cl.2 ++ [remOp n1])
  else if k = 1 then (v, cu.2 ++ [insOp n2])
  else (v, cpq.2 ++ ctd.2)

/-- Cells `0..y` of row 0 of `fd` (`src/ted_cer.py` lines 79–83): the cost
of building a non-empty prefix from nothing is the cumulative insert cost,
with one `INSERT` operation appended per step. -/
def row0Upto (ec : EngineCosts) (B : AnnT) (joff : Nat) : Nat → List Cell
  | 0 => [cell0]
  | y + 1 =>
    let r := row0Upto ec B joff y
    let prev := r.getD y cell0
    let node := B.node (y + 1 + joff)
    r ++ [(qadd prev.1 (ec.ins node), prev.2 ++ [insOp node])]

/-- Cells `0..y` of row `x ≥ 1` of `fd`, threading the `treedists` table:
cell 0 is the cumulative remove cost (`src/ted_cer.py` lines 74–78), and
each later cell is a same-lineage or subtree-reuse cell according to the
left-most-descendant test of line 96, writing `treedists`/`operations` back
in the same-lineage case (lines 128–129).  `rows` holds the already built
rows `0..x-1`; all `fd` reads go through the single table
`rows ++ [row so far]`, with unwritten positions reading the preallocated
zeros, as in Python. -/
def rowUpto (A B : AnnT) (ec : EngineCosts) (i j ioff joff x : Nat)
    (rows : List (List Cell)) (td : TdTable) : Nat → List Cell × TdTable
  | 0 =>
    let prev := look rows (x - 1) 0
    let node := A.node (x + ioff)
    ([(qadd prev.1 (ec.rem node), prev.2 ++ [remOp node])], td)
  | y + 1 =>
    let rt := rowUpto A B ec i j ioff joff x rows td y
    let row := rt.1
    let cur := rows ++ [row]
    let n1 := A.node (x + ioff)
    let n2 := B.node (y + 1 + joff)
    if A.lmd i = A.lmd (x + ioff) ∧ B.lmd j = B.lmd (y + 1 + joff) then
      let c := sameCell ec n1 n2
        (look cur (x - 1) (y + 1)) (look cur x y) (look cur (x - 1) y)
      (row ++ [c], tdSet rt.2 (x + ioff) (y + 1 + joff) c)
    else
      let p := A.lmd (x + ioff) - 1 - ioff
      let q := B.lmd (y + 1 + joff) - 1 - joff
      let c := elseCell ec n1 n2
        (look cur (x - 1) (y + 1)) (look cur x y) (look cur p q)
        (tdGet rt.2 (x + ioff) (y + 1 + joff))
      (row ++ [c], rt.2)

/-- Rows `0..x` of the forest-distance table of the keyroot pair `(i, j)`,
together with the threaded `treedists` table (the nested loops of
`treedist`, `src/ted_cer.py` lines 60–152, with `m - 1 = i - lmd i + 1`
rows and `n - 1 = j - lmd j + 1` columns beyond the base row/column). -/
def fdUpto (A B : AnnT) (ec : EngineCosts) (td0 : TdTable) (i j : Nat) :
    Nat → List (List Cell) × TdTable
  | 0 => ([row0Upto ec B (B.lmd j - 1) (j - B.lmd j + 1)], td0)
  | x + 1 =>
    let rt := fdUpto A B ec td0 i j x
    let rt2 := rowUpto A B ec i j (A.lmd i - 1) (B.lmd j - 1) (x + 1) rt.1
      rt.2 (j - B.lmd j + 1)
    (rt.1 ++ [rt2.1], rt2.2)

/-- The `treedists`/`operations` table after the `treedist(i, j)` call. -/
def treedistStep (A B : AnnT) (ec : EngineCosts) (td : TdTable) (i j : Nat) :
    TdTable :=
  (fdUpto A B ec td i j (i - A.lmd i + 1)).2

/-- The full forest-distance table built by the `treedist(i, j)` call. -/
def fdRowsOf (A B : AnnT) (ec : EngineCosts) (td : TdTable) (i j : Nat) :
    List (List Cell) :=
  (fdUpto A B ec td i j (i - A.lmd i + 1)).1

/-- The preallocated `treedists`/`operations` tables
(`zeros((size_a, size_b), float)` and the nested empty lists,
`src/ted_cer.py` lines 57–58), sized over postorder indices `0..size`. -/
def initTable (A B : AnnT) : TdTable :=
  List.replicate (A.size + 1) (List.replicate (B.size + 1) cell0)

/-- The keyroot double loop (`src/ted_cer.py` lines 154–156): `treedist`
over every pair of keyroots, both in ascending order. -/
def runTreedists (A B : AnnT) (ec : EngineCosts) : TdTable :=
  A.krs.foldl
    (fun td i => B.krs.foldl (fun td j => treedistStep A B ec td i j) td)
    (initTable A B)

/-- The value of `distance_with_cer`: a bare distance, or the pair
`(distance, operations)` when `return_operations` is set. -/
inductive TedResult where
  | dist : ℚ → TedResult
  | distOps : ℚ → List EditOp → TedResult
deriving Repr

instance : DecidableEq TedResult := fun a b =>
  match a, b with
  | .dist d1, .dist d2 =>
    match decEq d1 d2 with
    | isTrue h => isTrue (by rw [h])
    | isFalse h => isFalse (fun hh => h (TedResult.dist.inj hh))
  | .dist _, .distOps _ _ => isFalse (fun h => TedResult.noConfusion h)
  | .distOps _ _, .dist _ => isFalse (fun h => TedResult.noConfusion h)
  | .distOps d1 o1, .distOps d2 o2 =>
    match decEq d1 d2, decEq o1 o2 with
    | isTrue h1, isTrue h2 => isTrue (by rw [h1, h2])
    | isFalse h1, _ => isFalse (fun hh => h1 (TedResult.distOps.inj hh).1)
    | _, isFalse h2 => isFalse (fun hh => h2 (TedResult.distOps.inj hh).2)

/-- The scalar distance carried by a `TedResult`. -/
def TedResult.scalar : TedResult → ℚ
  | .dist d => d
  | .distOps d _ => d

/-- `distance_with_cer` (`src/ted_cer.py` lines 22–161) on two actual
(non-`None`) trees: annotate both, run the keyroot double loop, and return
`treedists[-1][-1]` (index `(size_a, size_b)` in the 1-based tables),
together with `operations[-1][-1]` when requested. -/
def distance_with_cer (a b : Node) (cm : CostModel) (cer : JVal → JVal → ℚ)
    (retOps : Bool) : TedResult :=
  let A := mkAnnT a
  let B := mkAnnT b
  let td := runTreedists A B ⟨cm.insertCost, cm.removeCost, relabelCost cm cer⟩
  let last := tdGet td A.size B.size
  if retOps then .distOps last.1 last.2 else .dist last.1

/-- A surfaced Python exception. -/
inductive PyErr where
  | attributeError : PyErr
  | zeroDivisionError : PyErr
  | typeError : PyErr
deriving DecidableEq, Repr

/-- `distance_with_cer` on possibly-`None` trees.  Modelled from the spec:
the Tree Annotator is "given a Node and a children-accessor" (§4.1) and has
no empty case; `distance_with_cer` annotates both inputs unconditionally
(line 54) with `Node.get_children`, which dereferences the children of a
`None` tree and so surfaces an `AttributeError`.  There is no explicit
empty-tree base case anywhere in `src/ted_cer.py`. -/
def distance_with_cerOpt (a b : Option Node) (cm : CostModel)
    (cer : JVal → JVal → ℚ) (retOps : Bool) : Except PyErr TedResult :=
  match a, b with
  | some a, some b => .ok (distance_with_cer a b cm cer retOps)
  | _, _ => .error .attributeError

/-- Modelled from the spec: the unit cost model of §3 — cost 1 for
structural edits, 0/1 for relabel depending on label equality. -/
def unitCostModel : CostModel :=
  { insertCost := fun _ => 1
    removeCost := fun _ => 1
    updateCost := fun a b => if a.label = b.label then 0 else 1 }

/-- Modelled from the spec: `zss.simple_distance` (not present under
`src/`) — the same Zhang–Shasha engine under the unit cost model, with the
relabel branch using the update cost unweighted. -/
def simple_distance (a b : Node) : ℚ :=
  let A := mkAnnT a
  let B := mkAnnT b
  let td := runTreedists A B
    ⟨unitCostModel.insertCost, unitCostModel.removeCost,
      unitCostModel.updateCost⟩
  (tdGet td A.size B.size).1

/-- The label-based cost model that `tree_error_rate` passes to
`distance_with_cer` (`src/zss_json.py` lines 129–131): insert/remove cost
the label distance against an empty string, update costs the label
distance of the two labels (`get_label` left at its default
`Node.get_label`). -/
def cmOfLabelDist (ld : JVal → JVal → ℚ) : CostModel :=
  { insertCost := fun n => ld (.str "") n.label
    removeCost := fun n => ld n.label (.str "")
    updateCost := fun a b => ld a.label b.label }

/-- `tree_error_rate` (`src/zss_json.py` lines 102–136).  With
`substring_bonus` the distance comes from `distance_with_cer` under the
label-distance cost model; otherwise from `simple_distance`.  The result of
the distance call is divided by `count_nodes(ref_tree)`: dividing the
`(distance, operations)` pair returned under `return_operations` raises a
`TypeError`, and a zero node count raises a `ZeroDivisionError`; a `None`
tree already fails inside the distance call. -/
def tree_error_rate (refTree hypTree : Option Node) (bonus : Bool)
    (ld : JVal → JVal → ℚ) (cer : JVal → JVal → ℚ) (retOps : Bool) :
    Except PyErr ℚ :=
  if bonus then
    match distance_with_cerOpt refTree hypTree (cmOfLabelDist ld) cer retOps with
    | .error e => .error e
    | .ok (.distOps _ _) => .error .typeError
    | .ok (.dist d) =>
      if count_nodes refTree = 0 then .error .zeroDivisionError
      else .ok (d / (count_nodes refTree : ℚ))
  else
    match refTree, hypTree with
    | some r, some h =>
      if count_nodes refTree = 0 then .error .zeroDivisionError
      else .ok (simple_distance r h / (count_nodes refTree : ℚ))
    | _, _ => .error .attributeError

/-- The 0/1 fallback label distance of `src/zss_json.py` lines 12–17 (used
as the default `label_dist` when no edit-distance package is importable). -/
def strdist (a b : JVal) : ℚ := if a = b then 0 else 1

/-- A trivially admissible external CER primitive (constantly 1), used to
instantiate the injectable `jiwer.cer` parameter in concrete runs. -/
def cerOne : JVal → JVal → ℚ := fun _ _ => 1

/-- A concrete single-node tree. -/
def leafA : Node := Node.mk (.str "a") []

/-- A concrete chain tree `Q(P)` (root `Q` with single child `P`):
postorder `P=1, Q=2`, lmds `[1, 1]`, keyroots `[2]`. -/
def cexA : Node := Node.mk (.str "Q") [Node.mk (.str "P") []]

/-- A concrete tree `R(P, Q(Z))`: postorder `P=1, Z=2, Q=3, R=4`,
lmds `[1, 2, 2, 1]`, keyroots `[3, 4]`. -/
def cexB : Node := Node.mk (.str "R")
  [Node.mk (.str "P") [], Node.mk (.str "Q") [Node.mk (.str "Z") []]]

/-- The engine costs that `distance_with_cer` resolves from the unit cost
model with the constant weighting `cerOne`. -/
def unitEc : EngineCosts :=
  ⟨unitCostModel.insertCost, unitCostModel.removeCost,
    relabelCost unitCostModel cerOne⟩

/-- The `treedists`/`operations` table after the first keyroot pair
`(2, 3)` of the run on `cexA` vs `cexB`. -/
def cexTd1 : TdTable :=
  treedistStep (mkAnnT cexA) (mkAnnT cexB) unitEc
    (initTable (mkAnnT cexA) (mkAnnT cexB)) 2 3

/-- The forest-distance table built by the second (final) keyroot pair
`(2, 4)` of the run on `cexA` vs `cexB`. -/
def cexRows : List (List Cell) :=
  fdRowsOf (mkAnnT cexA) (mkAnnT cexB) unitEc cexTd1 2 4

/-- The inner keyroot loop of `runTreedists` on a tree against itself:
`treedist(i, j)` over a list of second keyroots `js` with the first keyroot
`i` fixed. -/
def innerFold (t : Node) (ec : EngineCosts) (i : Nat) (js : List Nat)
    (td : TdTable) : TdTable :=
  js.foldl (fun td j => treedistStep (mkAnnT t) (mkAnnT t) ec td i j) td

/-- The outer keyroot loop of `runTreedists` on a tree against itself:
for each first keyroot in `is`, the full inner loop over all keyroots. -/
def outerFold (t : Node) (ec : EngineCosts) (is : List Nat)
    (td : TdTable) : TdTable :=
  is.foldl (fun td i => innerFold t ec i ((mkAnnT t).krs) td) td

/-- Shape of a `treedists` table for a self-comparison of `t`: a
`(size+1) × (size+1)` grid. -/
def TdShape (t : Node) (td : TdTable) : Prop :=
  td.length = countNode t + 1
  ∧ ∀ a, a ≤ countNode t → (td.getD a []).length = countNode t + 1

/-- All stored distances of a `treedists` table are nonnegative. -/
def TdNonneg (td : TdTable) : Prop := ∀ u v, 0 ≤ (tdGet td u v).1

/-- All diagonal `treedists` entries whose canonical keyroot precedes the
keyroot `i` are zero. -/
def DiagDone (t : Node) (i : Nat) (td : TdTable) : Prop :=
  ∀ k, 1 ≤ k → k ≤ countNode t → krOf (mkAnnT t) k < i →
    (tdGet td k k).1 = 0

/-- All diagonal `treedists` entries inside keyroot `i`'s subtree span
(same left-most descendant as `i`, index at most `i`) are zero. -/
def DiagAt (t : Node) (i : Nat) (td : TdTable) : Prop :=
  ∀ k, 1 ≤ k → k ≤ countNode t → (mkAnnT t).lmd k = (mkAnnT t).lmd i →
    k ≤ i → (tdGet td k k).1 = 0

/-- All diagonal `treedists` entries whose canonical keyroot is among the
already-processed first keyroots `done` are zero. -/
def DiagMem (t : Node) (done : List Nat) (td : TdTable) : Prop :=
  ∀ k, 1 ≤ k → k ≤ countNode t → krOf (mkAnnT t) k ∈ done →
    (tdGet td k k).1 = 0

theorem countNode_pos (t : Node) : 1 ≤ countNode t := by
  cases t with
  | mk l cs => simp [countNode]

theorem pymin_eq_min (a b : ℚ) : pymin a b = min a b := by
  rw [pymin, min_def]

theorem qadd_eq_add (a b : ℚ) : qadd a b = a + b := by
  have ha : ((a.den : ℚ)) ≠ 0 := Nat.cast_ne_zero.mpr a.den_nz
  have hb : ((b.den : ℚ)) ≠ 0 := Nat.cast_ne_zero.mpr b.den_nz
  rw [qadd, Rat.mkRat_eq_div]
  conv_rhs => rw [← Rat.num_div_den a, ← Rat.num_div_den b]
  rw [div_add_div _ _ ha hb]
  push_cast
  ring_nf

theorem qmul_eq_mul (a b : ℚ) : qmul a b = a * b := by
  rw [qmul, Rat.mkRat_eq_div]
  conv_rhs => rw [← Rat.num_div_den a, ← Rat.num_div_den b]
  rw [div_mul_div_comm]
  push_cast
  ring_nf

mutual

theorem buildChildren_eq_spec :
    ∀ v : JVal, arrFreeVal v = true → buildChildren v = specChildren v
  | .str _, _ => rfl
  | .obj kvs, h => by
    rw [buildChildren, specChildren]
    exact buildObj_eq_spec kvs (by simpa [arrFreeVal] using h)
  | .arr xs, h => by
    rw [buildChildren, specChildren]
    exact buildArr_eq_spec xs (by simpa [arrFreeVal] using h)

theorem buildArr_eq_spec :
    ∀ xs : List JVal, arrFreeArr xs = true → buildArr xs = specArr xs
  | [], _ => rfl
  | .obj kvs :: cs, h => by
    rw [buildArr, specArr]
    have h' : arrFreeObj kvs = true ∧ arrFreeArr cs = true := by
      simpa [arrFreeArr, Bool.and_eq_true] using h
    rw [buildObj_eq_spec kvs h'.1, buildArr_eq_spec cs h'.2]
  | .str s :: cs, h => by
    rw [buildArr, specArr]
    rw [buildArr_eq_spec cs (by simpa [arrFreeArr] using h)]
  | .arr ys :: cs, h => by
    simp [arrFreeArr] at h

theorem buildObj_eq_spec :
    ∀ kvs : List (String × JVal), arrFreeObj kvs = true →
      buildObj kvs = specObj kvs
  | [], _ => rfl
  | (k, v) :: rest, h => by
    rw [buildObj, specObj]
    have h' : arrFreeVal v = true ∧ arrFreeObj rest = true := by
      simpa [arrFreeObj, Bool.and_eq_true] using h
    rw [buildChildren_eq_spec v h'.1, buildObj_eq_spec rest h'.2]

end

/-- C5: for every mapping with two or more keys passed to `json_to_tree`,
only the first key (in iteration order) becomes the root of the returned
tree, and the subtrees of all other top-level keys are absent: the result
coincides with the result on the single-entry mapping holding only the
first key. -/
theorem C5_first_key_only (k : String) (v : JVal)
    (rest : List (String × JVal)) (hrest : rest ≠ []) :
    json_to_tree (.obj ((k, v) :: rest))
        = some (Node.mk (.str k) (buildChildren v))
    ∧ json_to_tree (.obj ((k, v) :: rest)) = json_to_tree (.obj [(k, v)]) :=
  ⟨rfl, rfl⟩

/-- Witness for C5 at a concrete two-key mapping: the second key `"c"` and
its subtree are dropped. -/
theorem C5_witness :
    json_to_tree (.obj [("a", .str "b"), ("c", .str "d")])
        = some (Node.mk (.str "a") [Node.mk (.str "b") []])
    ∧ json_to_tree (.obj [("a", .str "b"), ("c", .str "d")])
        = json_to_tree (.obj [("a", .str "b")]) := by
  have h := C5_first_key_only "a" (.str "b") [("c", .str "d")] (by simp)
  exact ⟨by rw [h.1]; rfl, h.2⟩

/-- C6: on every nested value in which no sequence occurs directly inside a
sequence (the one shape the spec's policy does not describe), the children
produced by `json_to_tree`'s loop agree with the spec's §4.4 policy:
sequence elements become direct children in positional order with mapping
elements flattened into one child per key and scalar elements becoming
leaf children; non-root mapping keys become children labeled by the key;
a terminal scalar becomes a single leaf child; and child order follows
input iteration order throughout. -/
theorem C6_children_policy :
    ∀ v : JVal, arrFreeVal v = true → buildChildren v = specChildren v :=
  buildChildren_eq_spec

/-- Witness for C6 at a concrete nested value exercising all three value
shapes. -/
theorem C6_witness :
    arrFreeVal (.obj [("a", .arr [.str "b", .obj [("c", .str "d")]])]) = true
    ∧ buildChildren (.obj [("a", .arr [.str "b", .obj [("c", .str "d")]])])
        = [Node.mk (.str "a")
            [Node.mk (.str "b") [], Node.mk (.str "c") [Node.mk (.str "d") []]]] := by
  refine ⟨by decide, ?_⟩
  rw [C6_children_policy _ (by decide)]
  rfl

/-- C10: with `substring_bonus=True` and `return_operations=True`,
`distance_with_cer` returns a `(distance, operations)` pair, and
`tree_error_rate` divides that pair by the reference node count, so the
call always raises a `TypeError`; the operation trace is unreachable
through the `tree_error_rate` interface. -/
theorem C10_trace_unreachable (a b : Node) (ld cer : JVal → JVal → ℚ) :
    (∃ d ops, distance_with_cer a b (cmOfLabelDist ld) cer true
        = .distOps d ops)
    ∧ tree_error_rate (some a) (some b) true ld cer true
        = .error .typeError :=
  ⟨⟨_, _, rfl⟩, rfl⟩

/-- C9: a reference tree of zero nodes (the `None` tree, the only zero-node
value of `count_nodes`) makes `tree_error_rate` fail with a surfaced error
for every hypothesis tree and mode; no partial or silently wrong result is
returned.  (The surfaced error is the `AttributeError` raised while the
distance call annotates the `None` reference, which precedes the division
by `count_nodes(reference)`.) -/
theorem C9_zero_node_reference (hyp : Option Node) (bonus retOps : Bool)
    (ld cer : JVal → JVal → ℚ) :
    count_nodes none = 0
    ∧ tree_error_rate none hyp bonus ld cer retOps
        = .error .attributeError := by
  refine ⟨rfl, ?_⟩
  cases bonus <;> cases hyp <;> rfl

/-- C8 counterexample: a reference tree of size 1 compared against an empty
hypothesis does not yield distance 1 and error rate 1 — both the distance
call and `tree_error_rate` surface an `AttributeError` instead, in both
modes. -/
theorem C8_counterexample :
    countNode leafA = 1
    ∧ distance_with_cerOpt (some leafA) none unitCostModel cerOne false
        = .error .attributeError
    ∧ distance_with_cerOpt (some leafA) none unitCostModel cerOne false
        ≠ .ok (.dist 1)
    ∧ tree_error_rate (some leafA) none true strdist cerOne false
        = .error .attributeError
    ∧ tree_error_rate (some leafA) none true strdist cerOne false ≠ .ok 1
    ∧ tree_error_rate (some leafA) none false strdist cerOne false
        = .error .attributeError
    ∧ tree_error_rate (some leafA) none false strdist cerOne false ≠ .ok 1 := by
  refine ⟨rfl, rfl, ?_, rfl, ?_, rfl, ?_⟩ <;> exact fun h => by cases h

/-- C8 amended: comparing any tree against an empty (`None`) tree is not
handled by an explicit base case: `distance_with_cer` unconditionally
annotates both inputs, annotation of an absent tree fails, and the
`AttributeError` surfaces through `tree_error_rate` in both modes, on
either side. -/
theorem C8_empty_tree_errors (t : Node) (b : Option Node) (cm : CostModel)
    (bonus retOps : Bool) (ld cer : JVal → JVal → ℚ) :
    distance_with_cerOpt (some t) none cm cer retOps
        = .error .attributeError
    ∧ distance_with_cerOpt none b cm cer retOps = .error .attributeError
    ∧ tree_error_rate (some t) none bonus ld cer retOps
        = .error .attributeError
    ∧ tree_error_rate none b bonus ld cer retOps
        = .error .attributeError := by
  refine ⟨rfl, ?_, ?_, ?_⟩
  · cases b <;> rfl
  · cases bonus <;> rfl
  · cases bonus <;> cases b <;> rfl

/-- C2: in the relabel cost used by the distance engine, a pair with
strictly positive base update cost is weighted by the label dissimilarity
clamped to at most 1, and a pair with zero base update cost keeps relabel
cost exactly 0 (the weighting is skipped). -/
theorem C2_relabel_weighting (cm : CostModel) (cer : JVal → JVal → ℚ)
    (n1 n2 : Node) :
    (0 < cm.updateCost n1 n2 →
      relabelCost cm cer n1 n2
        = cm.updateCost n1 n2 * min (cer n1.label n2.label) 1)
    ∧ (cm.updateCost n1 n2 = 0 → relabelCost cm cer n1 n2 = 0) := by
  constructor
  · intro h; simp [relabelCost, qmul_eq_mul, pymin_eq_min, h]
  · intro h; simp [relabelCost, qmul_eq_mul, pymin_eq_min, h]

/-- Witness for C2 at concrete nodes: distinct labels (base cost 1) are
weighted by a clamped dissimilarity `min (3/2) 1`, and equal labels (base
cost 0) stay 0. -/
theorem C2_witness :
    relabelCost (cmOfLabelDist strdist) (fun _ _ => (3 : ℚ)/2) leafA
        (Node.mk (.str "b") []) = 1 * min ((3 : ℚ)/2) 1
    ∧ relabelCost (cmOfLabelDist strdist) (fun _ _ => (3 : ℚ)/2) leafA leafA
        = 0 := by
  constructor
  · have h := (C2_relabel_weighting (cmOfLabelDist strdist)
      (fun _ _ => (3 : ℚ)/2) leafA (Node.mk (.str "b") [])).1 (by decide)
    simpa [cmOfLabelDist, strdist, leafA, Node.label] using h
  · exact (C2_relabel_weighting (cmOfLabelDist strdist)
      (fun _ _ => (3 : ℚ)/2) leafA leafA).2 (by decide)

theorem listMin3 (a b c : ℚ) : listMin [a, b, c] = min a (min b c) := by
  simp [listMin, List.foldl, pymin_eq_min, min_assoc]

/-- Python's `min` followed by `list.index` on a three-element cost list
selects the first position attaining the minimum. -/
theorem pick3 (r i d : ℚ) :
    (r ≤ i ∧ r ≤ d →
      listMin [r, i, d] = r ∧ listIdx [r, i, d] (listMin [r, i, d]) = 0)
    ∧ (¬ (r ≤ i ∧ r ≤ d) ∧ i ≤ d →
      listMin [r, i, d] = i ∧ listIdx [r, i, d] (listMin [r, i, d]) = 1)
    ∧ (¬ (r ≤ i ∧ r ≤ d) ∧ ¬ i ≤ d →
      listMin [r, i, d] = d ∧ listIdx [r, i, d] (listMin [r, i, d]) = 2) := by
  refine ⟨fun h => ?_, fun h => ?_, fun h => ?_⟩
  · have hm : listMin [r, i, d] = r := by
      rw [listMin3]; exact min_eq_left (le_min h.1 h.2)
    refine ⟨hm, ?_⟩
    rw [hm]
    simp [listIdx, List.findIdx_cons]
  · have hir : i < r := by
      by_contra hri
      exact h.1 ⟨le_of_not_lt hri, le_trans (le_of_not_lt hri) h.2⟩
    have hm : listMin [r, i, d] = i := by
      rw [listMin3, min_eq_left h.2]
      exact min_eq_right (le_of_lt hir)
    refine ⟨hm, ?_⟩
    rw [hm]
    simp [listIdx, List.findIdx_cons, (ne_of_lt hir).symm]
  · have hdi : d < i := lt_of_not_le h.2
    have hdr : d < r := by
      rcases not_and_or.mp h.1 with hri | hrd
      · exact lt_of_lt_of_le hdi (le_of_not_le hri)
      · exact lt_of_not_le hrd
    have hm : listMin [r, i, d] = d := by
      rw [listMin3, min_eq_right (le_of_lt hdi)]
      exact min_eq_right (le_of_lt hdr)
    refine ⟨hm, ?_⟩
    rw [hm]
    simp [listIdx, List.findIdx_cons, (ne_of_lt hdr).symm, (ne_of_lt hdi).symm]

/-- C4: when several branches of the DP recurrence attain the same minimal
cost in a cell, the operation recorded for the cell follows the fixed
priority remove, then insert, then relabel/match — the first minimal-cost
option in the scanned order — in both the same-lineage cell and the
subtree-reuse cell. -/
theorem C4_tie_priority (ec : EngineCosts) (n1 n2 : Node)
    (cl cu cd cpq ctd : Cell) :
    (cl.1 + ec.rem n1 ≤ cu.1 + ec.ins n2 ∧
        cl.1 + ec.rem n1 ≤ cd.1 + ec.rel n1 n2 →
      sameCell ec n1 n2 cl cu cd
        = (cl.1 + ec.rem n1, cl.2 ++ [remOp n1]))
    ∧ (¬ (cl.1 + ec.rem n1 ≤ cu.1 + ec.ins n2 ∧
          cl.1 + ec.rem n1 ≤ cd.1 + ec.rel n1 n2) ∧
        cu.1 + ec.ins n2 ≤ cd.1 + ec.rel n1 n2 →
      sameCell ec n1 n2 cl cu cd
        = (cu.1 + ec.ins n2, cu.2 ++ [insOp n2]))
    ∧ (¬ (cl.1 + ec.rem n1 ≤ cu.1 + ec.ins n2 ∧
          cl.1 + ec.rem n1 ≤ cd.1 + ec.rel n1 n2) ∧
        ¬ cu.1 + ec.ins n2 ≤ cd.1 + ec.rel n1 n2 →
      sameCell ec n1 n2 cl cu cd
        = (cd.1 + ec.rel n1 n2,
            cd.2 ++ [⟨if cd.1 + ec.rel n1 n2 = cd.1 then .mtch else .upd,
              some n1, some n2⟩]))
    ∧ (cl.1 + ec.rem n1 ≤ cu.1 + ec.ins n2 ∧
        cl.1 + ec.rem n1 ≤ cpq.1 + ctd.1 →
      elseCell ec n1 n2 cl cu cpq ctd
        = (cl.1 + ec.rem n1, cl.2 ++ [remOp n1]))
    ∧ (¬ (cl.1 + ec.rem n1 ≤ cu.1 + ec.ins n2 ∧
          cl.1 + ec.rem n1 ≤ cpq.1 + ctd.1) ∧
        cu.1 + ec.ins n2 ≤ cpq.1 + ctd.1 →
      elseCell ec n1 n2 cl cu cpq ctd
        = (cu.1 + ec.ins n2, cu.2 ++ [insOp n2]))
    ∧ (¬ (cl.1 + ec.rem n1 ≤ cu.1 + ec.ins n2 ∧
          cl.1 + ec.rem n1 ≤ cpq.1 + ctd.1) ∧
        ¬ cu.1 + ec.ins n2 ≤ cpq.1 + ctd.1 →
      elseCell ec n1 n2 cl cu cpq ctd
        = (cpq.1 + ctd.1, cpq.2 ++ ctd.2)) := by
  refine ⟨fun h => ?_, fun h => ?_, fun h => ?_, fun h => ?_, fun h => ?_,
    fun h => ?_⟩
  · obtain ⟨hm, hi⟩ := (pick3 (cl.1 + ec.rem n1) (cu.1 + ec.ins n2)
      (cd.1 + ec.rel n1 n2)).1 h
    rw [hm] at hi
    simp [sameCell, qadd_eq_add, hm, hi]
  · obtain ⟨hm, hi⟩ := (pick3 (cl.1 + ec.rem n1) (cu.1 + ec.ins n2)
      (cd.1 + ec.rel n1 n2)).2.1 h
    rw [hm] at hi
    simp [sameCell, qadd_eq_add, hm, hi]
  · obtain ⟨hm, hi⟩ := (pick3 (cl.1 + ec.rem n1) (cu.1 + ec.ins n2)
      (cd.1 + ec.rel n1 n2)).2.2 h
    rw [hm] at hi
    simp [sameCell, qadd_eq_add, hm, hi]
  · obtain ⟨hm, hi⟩ := (pick3 (cl.1 + ec.rem n1) (cu.1 + ec.ins n2)
      (cpq.1 + ctd.1)).1 h
    rw [hm] at hi
    simp [elseCell, qadd_eq_add, hm, hi]
  · obtain ⟨hm, hi⟩ := (pick3 (cl.1 + ec.rem n1) (cu.1 + ec.ins n2)
      (cpq.1 + ctd.1)).2.1 h
    rw [hm] at hi
    simp [elseCell, qadd_eq_add, hm, hi]
  · obtain ⟨hm, hi⟩ := (pick3 (cl.1 + ec.rem n1) (cu.1 + ec.ins n2)
      (cpq.1 + ctd.1)).2.2 h
    rw [hm] at hi
    simp [elseCell, qadd_eq_add, hm, hi]

/-- Witness for C4 at a concrete three-way tie (all branch costs equal 1):
both cells record the remove operation. -/
theorem C4_witness :
    sameCell ⟨fun _ => 1, fun _ => 1, fun _ _ => 1⟩ leafA leafA
        (0, []) (0, []) (0, [])
      = (1, [remOp leafA])
    ∧ elseCell ⟨fun _ => 1, fun _ => 1, fun _ _ => 1⟩ leafA leafA
        (0, []) (0, []) (0, []) (1, [])
      = (1, [remOp leafA]) := by
  constructor
  · have h := (C4_tie_priority ⟨fun _ => 1, fun _ => 1, fun _ _ => 1⟩
      leafA leafA (0, []) (0, []) (0, []) (0, []) (1, [])).1
      ⟨by norm_num, by norm_num⟩
    simpa using h
  · have h := (C4_tie_priority ⟨fun _ => 1, fun _ => 1, fun _ _ => 1⟩
      leafA leafA (0, []) (0, []) (0, []) (0, []) (1, [])).2.2.2.1
      ⟨by norm_num, by norm_num⟩
    simpa using h

/-- C3 counterexample: in the run of `distance_with_cer`'s engine on
`cexA = Q(P)` vs `cexB = R(P, Q(Z))` under unit costs, the keyroot pairs
are `(2, 3)` then `(2, 4)`.  Within pair `(i, j) = (2, 4)` (offsets
`ioff = joff = 0`) the cell `(x, y) = (2, 2)` has `lmd(x + ioff) = lmd(i)`
(the claim's condition), yet the code's conjunction fails on the `y` side
(`lmd(y + joff) = 2 ≠ 1 = lmd(j)`): the computed cell value is `2` (the
subtree-reuse branch), while the claim's true-tree-edit-distance recurrence
`min(remove + fd[x-1][y], insert + fd[x][y-1], relabel + fd[x-1][y-1])`
evaluates to `1` — so the cell is not computed as a true TED cell even
though the left-most descendant of `x`'s node equals that of keyroot `i`. -/
theorem C3_counterexample :
    (mkAnnT cexA).krs = [2]
    ∧ (mkAnnT cexB).krs = [3, 4]
    ∧ runTreedists (mkAnnT cexA) (mkAnnT cexB) unitEc
        = treedistStep (mkAnnT cexA) (mkAnnT cexB) unitEc cexTd1 2 4
    ∧ (mkAnnT cexA).lmd (2 + ((mkAnnT cexA).lmd 2 - 1)) = (mkAnnT cexA).lmd 2
    ∧ ¬ ((mkAnnT cexB).lmd 4
          = (mkAnnT cexB).lmd (2 + ((mkAnnT cexB).lmd 4 - 1)))
    ∧ (look cexRows 2 2).1 = 2
    ∧ listMin
        [qadd (look cexRows 1 2).1
          (unitEc.rem ((mkAnnT cexA).node (2 + ((mkAnnT cexA).lmd 2 - 1)))),
         qadd (look cexRows 2 1).1
          (unitEc.ins ((mkAnnT cexB).node (2 + ((mkAnnT cexB).lmd 4 - 1)))),
         qadd (look cexRows 1 1).1
          (unitEc.rel ((mkAnnT cexA).node (2 + ((mkAnnT cexA).lmd 2 - 1)))
            ((mkAnnT cexB).node (2 + ((mkAnnT cexB).lmd 4 - 1))))] = 1
    ∧ (2 : ℚ) ≠ 1 := by
  have hA : (mkAnnT cexA).krs = [2] := by decide
  have hB : (mkAnnT cexB).krs = [3, 4] := by decide
  refine ⟨hA, hB, ?_, by decide, by decide, by decide, by decide, by decide⟩
  rw [runTreedists, hA, hB]
  simp [List.foldl, cexTd1]

/-- C1: for every reference tree (non-empty by construction) and hypothesis
tree, `tree_error_rate` returns exactly the distance divided by the
reference node count, as an exact rational equality, in both the plain and
the CER-weighted (`substring_bonus`) mode. -/
theorem C1_error_rate_quotient (r h : Node) (ld cer : JVal → JVal → ℚ) :
    tree_error_rate (some r) (some h) true ld cer false
      = .ok ((distance_with_cer r h (cmOfLabelDist ld) cer false).scalar
          / (count_nodes (some r) : ℚ))
    ∧ tree_error_rate (some r) (some h) false ld cer false
      = .ok (simple_distance r h / (count_nodes (some r) : ℚ)) := by
  have hc : count_nodes (some r) ≠ 0 := by
    have := countNode_pos r
    simp [count_nodes]
    omega
  constructor
  · simp [tree_error_rate, distance_with_cerOpt, distance_with_cer,
      TedResult.scalar, hc]
  · simp [tree_error_rate, hc]

theorem getD_set_ne {α : Type} (l : List α) (d : α) (a b : Nat) (v : α)
    (h : a ≠ b) : (l.set a v).getD b d = l.getD b d := by
  by_cases hb : b < l.length
  · rw [List.getD_eq_getElem _ _ (by simpa using hb),
      List.getD_eq_getElem _ _ hb]
    exact List.getElem_set_ne h _
  · rw [List.getD_eq_default _ _ (by simpa using Nat.le_of_not_lt hb),
      List.getD_eq_default _ _ (Nat.le_of_not_lt hb)]

theorem getD_set_self {α : Type} (l : List α) (d : α) (a : Nat) (v : α)
    (h : a < l.length) : (l.set a v).getD a d = v := by
  rw [List.getD_eq_getElem _ _ (by simpa using h)]
  exact List.getElem_set_self _

theorem getD_set_default {α : Type} (l : List α) (d : α) (a : Nat) (v : α)
    (h : ¬ a < l.length) : (l.set a v).getD a d = d :=
  List.getD_eq_default _ _ (by simpa using Nat.le_of_not_lt h)

theorem tdGet_tdSet_ne (td : TdTable) (a b u v : Nat) (c : Cell)
    (h : ¬(u = a ∧ v = b)) : tdGet (tdSet td a b c) u v = tdGet td u v := by
  simp only [tdGet, tdSet]
  by_cases hau : a = u
  · subst hau
    have hbv : v ≠ b := fun hvb => h ⟨rfl, hvb⟩
    by_cases hl : a < td.length
    · rw [getD_set_self _ _ _ _ hl, getD_set_ne _ _ _ _ _ (Ne.symm hbv)]
    · rw [getD_set_default _ _ _ _ hl,
        List.getD_eq_default _ [] (Nat.le_of_not_lt hl)]
  · rw [getD_set_ne _ _ _ _ _ hau]

theorem tdGet_tdSet_self (td : TdTable) (a b : Nat) (c : Cell)
    (ha : a < td.length) (hb : b < (td.getD a []).length) :
    tdGet (tdSet td a b c) a b = c := by
  simp only [tdGet, tdSet]
  rw [getD_set_self _ _ _ _ ha, getD_set_self _ _ _ _ hb]

theorem tdGet_tdSet_cases (td : TdTable) (a b u v : Nat) (c : Cell) :
    tdGet (tdSet td a b c) u v = c ∨
      tdGet (tdSet td a b c) u v = tdGet td u v := by
  by_cases h : u = a ∧ v = b
  · obtain ⟨rfl, rfl⟩ := h
    by_cases ha : u < td.length
    · by_cases hb : v < (td.getD u []).length
      · exact Or.inl (tdGet_tdSet_self td u v c ha hb)
      · right
        simp only [tdGet, tdSet]
        rw [getD_set_self _ _ _ _ ha,
          List.getD_eq_default _ _ (by simpa using Nat.le_of_not_lt hb),
          List.getD_eq_default _ _ (Nat.le_of_not_lt hb)]
    · right
      simp only [tdGet, tdSet]
      rw [getD_set_default _ _ _ _ ha,
        List.getD_eq_default _ [] (Nat.le_of_not_lt ha)]
  · exact Or.inr (tdGet_tdSet_ne td a b u v c h)

theorem tdSet_length (td : TdTable) (a b : Nat) (c : Cell) :
    (tdSet td a b c).length = td.length := by
  rw [tdSet, List.length_set]

theorem tdSet_row_length (td : TdTable) (a b a' : Nat) (c : Cell) :
    ((tdSet td a b c).getD a' []).length = (td.getD a' []).length := by
  by_cases hau : a = a'
  · subst hau
    by_cases hl : a < td.length
    · rw [tdSet, getD_set_self _ _ _ _ hl, List.length_set]
    · rw [tdSet, getD_set_default _ _ _ _ hl,
        List.getD_eq_default _ [] (Nat.le_of_not_lt hl)]
  · rw [tdSet, getD_set_ne _ _ _ _ _ hau]

theorem look_append_left (rows : List (List Cell)) (r : List Cell)
    (x y : Nat) (h : x < rows.length) :
    look (rows ++ [r]) x y = look rows x y := by
  rw [look, look, List.getD_append _ _ _ _ h]

theorem look_append_last (rows : List (List Cell)) (r : List Cell) (y : Nat) :
    look (rows ++ [r]) rows.length y = r.getD y cell0 := by
  rw [look, List.getD_append_right _ _ _ _ (Nat.le_refl _), Nat.sub_self]
  rfl

theorem row0Upto_length (ec : EngineCosts) (B : AnnT) (joff : Nat) :
    ∀ y, (row0Upto ec B joff y).length = y + 1
  | 0 => rfl
  | y + 1 => by
    simp [row0Upto, row0Upto_length ec B joff y]

theorem row0Upto_getD_mono (ec : EngineCosts) (B : AnnT) (joff : Nat) :
    ∀ y y', y' ≤ y → (row0Upto ec B joff y).getD y' cell0
      = (row0Upto ec B joff y').getD y' cell0
  | 0, 0, _ => rfl
  | 0, _ + 1, h => absurd h (by omega)
  | y + 1, y', h => by
    rcases Nat.lt_or_ge y' (y + 1) with hy | hy
    · rw [row0Upto, List.getD_append _ _ _ _ (by rw [row0Upto_length]; omega)]
      exact row0Upto_getD_mono ec B joff y y' (by omega)
    · have hy' : y' = y + 1 := by omega
      subst hy'
      rfl

theorem rowUpto_fst_succ (A B : AnnT) (ec : EngineCosts)
    (i j ioff joff x : Nat) (rows : List (List Cell)) (td : TdTable)
    (y : Nat) :
    ∃ c, (rowUpto A B ec i j ioff joff x rows td (y + 1)).1
      = (rowUpto A B ec i j ioff joff x rows td y).1 ++ [c] := by
  simp only [rowUpto]
  by_cases hcnd : A.lmd i = A.lmd (x + ioff) ∧ B.lmd j = B.lmd (y + 1 + joff)
  · rw [if_pos hcnd]
    exact ⟨_, rfl⟩
  · rw [if_neg hcnd]
    exact ⟨_, rfl⟩

theorem rowUpto_length (A B : AnnT) (ec : EngineCosts)
    (i j ioff joff x : Nat) (rows : List (List Cell)) (td : TdTable) :
    ∀ y, ((rowUpto A B ec i j ioff joff x rows td y).1).length = y + 1
  | 0 => rfl
  | y + 1 => by
    obtain ⟨c, hc⟩ := rowUpto_fst_succ A B ec i j ioff joff x rows td y
    rw [hc]
    simp [rowUpto_length A B ec i j ioff joff x rows td y]

theorem rowUpto_getD_mono (A B : AnnT) (ec : EngineCosts)
    (i j ioff joff x : Nat) (rows : List (List Cell)) (td : TdTable) :
    ∀ y y', y' ≤ y →
      ((rowUpto A B ec i j ioff joff x rows td y).1).getD y' cell0
        = ((rowUpto A B ec i j ioff joff x rows td y').1).getD y' cell0
  | 0, 0, _ => rfl
  | 0, _ + 1, h => absurd h (by omega)
  | y + 1, y', h => by
    rcases Nat.lt_or_ge y' (y + 1) with hy | hy
    · obtain ⟨c, hc⟩ := rowUpto_fst_succ A B ec i j ioff joff x rows td y
      rw [hc, List.getD_append _ _ _ _ (by rw [rowUpto_length]; omega)]
      exact rowUpto_getD_mono A B ec i j ioff joff x rows td y y' (by omega)
    · have hy' : y' = y + 1 := by omega
      subst hy'
      rfl

theorem fdUpto_fst_succ (A B : AnnT) (ec : EngineCosts) (td0 : TdTable)
    (i j x : Nat) :
    (fdUpto A B ec td0 i j (x + 1)).1
      = (fdUpto A B ec td0 i j x).1
        ++ [(rowUpto A B ec i j (A.lmd i - 1) (B.lmd j - 1) (x + 1)
              (fdUpto A B ec td0 i j x).1 (fdUpto A B ec td0 i j x).2
              (j - B.lmd j + 1)).1] := by
  simp [fdUpto]

theorem fdUpto_snd_succ (A B : AnnT) (ec : EngineCosts) (td0 : TdTable)
    (i j x : Nat) :
    (fdUpto A B ec td0 i j (x + 1)).2
      = (rowUpto A B ec i j (A.lmd i - 1) (B.lmd j - 1) (x + 1)
          (fdUpto A B ec td0 i j x).1 (fdUpto A B ec td0 i j x).2
          (j - B.lmd j + 1)).2 := by
  simp [fdUpto]

theorem fdUpto_length (A B : AnnT) (ec : EngineCosts) (td0 : TdTable)
    (i j : Nat) :
    ∀ x, ((fdUpto A B ec td0 i j x).1).length = x + 1
  | 0 => by simp [fdUpto, row0Upto_length]
  | x + 1 => by
    rw [fdUpto_fst_succ]
    simp [fdUpto_length A B ec td0 i j x]

theorem fdUpto_getD_mono (A B : AnnT) (ec : EngineCosts) (td0 : TdTable)
    (i j : Nat) :
    ∀ x x', x' ≤ x → ((fdUpto A B ec td0 i j x).1).getD x' []
      = ((fdUpto A B ec td0 i j x').1).getD x' []
  | 0, 0, _ => rfl
  | 0, _ + 1, h => absurd h (by omega)
  | x + 1, x', h => by
    rcases Nat.lt_or_ge x' (x + 1) with hx | hx
    · rw [fdUpto_fst_succ, List.getD_append _ _ _ _ (by rw [fdUpto_length]; omega)]
      exact fdUpto_getD_mono A B ec td0 i j x x' (by omega)
    · have hx' : x' = x + 1 := by omega
      subst hx'
      rfl

theorem look_fdUpto_mono (A B : AnnT) (ec : EngineCosts) (td0 : TdTable)
    (i j x x' a b : Nat) (ha : a ≤ x') (hx : x' ≤ x) :
    look ((fdUpto A B ec td0 i j x).1) a b
      = look ((fdUpto A B ec td0 i j x').1) a b := by
  rw [look, look, fdUpto_getD_mono A B ec td0 i j x a (le_trans ha hx),
    fdUpto_getD_mono A B ec td0 i j x' a ha]

theorem getD_append_length {α : Type} (l : List α) (a : α) (d : α) :
    (l ++ [a]).getD l.length d = a := by
  rw [List.getD_append_right _ _ _ _ (le_refl _), Nat.sub_self]
  rfl

theorem row0Upto_getD_last (ec : EngineCosts) (B : AnnT) (joff y : Nat) :
    (row0Upto ec B joff (y + 1)).getD (y + 1) cell0
      = (qadd ((row0Upto ec B joff y).getD y cell0).1
            (ec.ins (B.node (y + 1 + joff))),
          ((row0Upto ec B joff y).getD y cell0).2
            ++ [insOp (B.node (y + 1 + joff))]) := by
  have hl := row0Upto_length ec B joff y
  simp only [row0Upto]
  rw [← hl, getD_append_length]

theorem rowUpto_getD_zero (A B : AnnT) (ec : EngineCosts)
    (i j ioff joff x : Nat) (rows : List (List Cell)) (td : TdTable) :
    ((rowUpto A B ec i j ioff joff x rows td 0).1).getD 0 cell0
      = (qadd (look rows (x - 1) 0).1 (ec.rem (A.node (x + ioff))),
          (look rows (x - 1) 0).2 ++ [remOp (A.node (x + ioff))]) := rfl

theorem rowUpto_getD_last (A B : AnnT) (ec : EngineCosts)
    (i j ioff joff x : Nat) (rows : List (List Cell)) (td : TdTable)
    (y : Nat) :
    ((rowUpto A B ec i j ioff joff x rows td (y + 1)).1).getD (y + 1) cell0
      = (if A.lmd i = A.lmd (x + ioff) ∧ B.lmd j = B.lmd (y + 1 + joff) then
          sameCell ec (A.node (x + ioff)) (B.node (y + 1 + joff))
            (look (rows ++ [(rowUpto A B ec i j ioff joff x rows td y).1])
              (x - 1) (y + 1))
            (look (rows ++ [(rowUpto A B ec i j ioff joff x rows td y).1])
              x y)
            (look (rows ++ [(rowUpto A B ec i j ioff joff x rows td y).1])
              (x - 1) y)
        else
          elseCell ec (A.node (x + ioff)) (B.node (y + 1 + joff))
            (look (rows ++ [(rowUpto A B ec i j ioff joff x rows td y).1])
              (x - 1) (y + 1))
            (look (rows ++ [(rowUpto A B ec i j ioff joff x rows td y).1])
              x y)
            (look (rows ++ [(rowUpto A B ec i j ioff joff x rows td y).1])
              (A.lmd (x + ioff) - 1 - ioff) (B.lmd (y + 1 + joff) - 1 - joff))
            (tdGet ((rowUpto A B ec i j ioff joff x rows td y).2)
              (x + ioff) (y + 1 + joff))) := by
  have hl := rowUpto_length A B ec i j ioff joff x rows td y
  simp only [rowUpto]
  by_cases hcnd : A.lmd i = A.lmd (x + ioff) ∧ B.lmd j = B.lmd (y + 1 + joff)
  · rw [if_pos hcnd, if_pos hcnd]
    dsimp only
    rw [← hl, getD_append_length]
  · rw [if_neg hcnd, if_neg hcnd]
    dsimp only
    rw [← hl, getD_append_length]

theorem rowUpto_td_agree (A B : AnnT) (ec : EngineCosts)
    (i j ioff joff x : Nat) (rows : List (List Cell)) (td : TdTable)
    (u v : Nat) :
    ∀ y, (∀ b, 1 ≤ b → b ≤ y →
        (A.lmd i = A.lmd (x + ioff) ∧ B.lmd j = B.lmd (b + joff)) →
        ¬(u = x + ioff ∧ v = b + joff)) →
      tdGet ((rowUpto A B ec i j ioff joff x rows td y).2) u v
        = tdGet td u v
  | 0, _ => rfl
  | y + 1, h => by
    simp only [rowUpto]
    by_cases hcnd : A.lmd i = A.lmd (x + ioff) ∧ B.lmd j = B.lmd (y + 1 + joff)
    · rw [if_pos hcnd]
      dsimp only
      rw [tdGet_tdSet_ne _ _ _ _ _ _ (h (y + 1) (by omega) (by omega) hcnd)]
      exact rowUpto_td_agree A B ec i j ioff joff x rows td u v y
        (fun b hb1 hb2 => h b hb1 (by omega))
    · rw [if_neg hcnd]
      dsimp only
      exact rowUpto_td_agree A B ec i j ioff joff x rows td u v y
        (fun b hb1 hb2 => h b hb1 (by omega))

theorem fdUpto_td_agree (A B : AnnT) (ec : EngineCosts) (td0 : TdTable)
    (i j u v : Nat) :
    ∀ x, (∀ a b, 1 ≤ a → a ≤ x → 1 ≤ b → b ≤ j - B.lmd j + 1 →
        (A.lmd i = A.lmd (a + (A.lmd i - 1))
          ∧ B.lmd j = B.lmd (b + (B.lmd j - 1))) →
        ¬(u = a + (A.lmd i - 1) ∧ v = b + (B.lmd j - 1))) →
      tdGet ((fdUpto A B ec td0 i j x).2) u v = tdGet td0 u v
  | 0, _ => rfl
  | x + 1, h => by
    rw [fdUpto_snd_succ,
      rowUpto_td_agree A B ec i j (A.lmd i - 1) (B.lmd j - 1) (x + 1) _ _ u v
        (j - B.lmd j + 1)
        (fun b hb1 hb2 hcnd => h (x + 1) b (by omega) (le_refl _) hb1 hb2 hcnd)]
    exact fdUpto_td_agree A B ec td0 i j u v x
      (fun a b ha1 ha2 hb1 hb2 hcnd => h a b ha1 (by omega) hb1 hb2 hcnd)

/-- The final forest-distance table of a keyroot pair satisfies the
two-branch recurrence of `treedist` cellwise: a cell whose row and column
nodes both have the same left-most descendants as their keyroots is a
same-lineage cell over its neighbours, and any other cell is a
subtree-reuse cell reading the memoized `treedists` entry as of the start
of the call. -/
theorem fd_cell (A B : AnnT) (ec : EngineCosts) (td0 : TdTable)
    (i j x y : Nat) (hx1 : 1 ≤ x) (hx2 : x ≤ i - A.lmd i + 1)
    (hy1 : 1 ≤ y) (hy2 : y ≤ j - B.lmd j + 1)
    (hpa : A.lmd (x + (A.lmd i - 1)) ≤ x + (A.lmd i - 1)) :
    look (fdRowsOf A B ec td0 i j) x y
      = if A.lmd i = A.lmd (x + (A.lmd i - 1))
            ∧ B.lmd j = B.lmd (y + (B.lmd j - 1)) then
          sameCell ec (A.node (x + (A.lmd i - 1)))
            (B.node (y + (B.lmd j - 1)))
            (look (fdRowsOf A B ec td0 i j) (x - 1) y)
            (look (fdRowsOf A B ec td0 i j) x (y - 1))
            (look (fdRowsOf A B ec td0 i j) (x - 1) (y - 1))
        else
          elseCell ec (A.node (x + (A.lmd i - 1)))
            (B.node (y + (B.lmd j - 1)))
            (look (fdRowsOf A B ec td0 i j) (x - 1) y)
            (look (fdRowsOf A B ec td0 i j) x (y - 1))
            (look (fdRowsOf A B ec td0 i j)
              (A.lmd (x + (A.lmd i - 1)) - 1 - (A.lmd i - 1))
              (B.lmd (y + (B.lmd j - 1)) - 1 - (B.lmd j - 1)))
            (tdGet td0 (x + (A.lmd i - 1)) (y + (B.lmd j - 1))) := by
  rcases x with _ | x0
  · omega
  rcases y with _ | y0
  · omega
  have hx0 : x0 ≤ i - A.lmd i + 1 := by omega
  have happ : ∀ (L : List (List Cell)) (R : List Cell),
      L.length = x0 + 1 → (L ++ [R]).getD (x0 + 1) [] = R := by
    intro L R h
    rw [← h, getD_append_length]
  -- the final row `x0 + 1`, read at any column `b ≤ n - 1`
  have hmain : ∀ b, b ≤ j - B.lmd j + 1 →
      look (fdRowsOf A B ec td0 i j) (x0 + 1) b
        = ((rowUpto A B ec i j (A.lmd i - 1) (B.lmd j - 1) (x0 + 1)
            ((fdUpto A B ec td0 i j x0).1) ((fdUpto A B ec td0 i j x0).2)
            b).1).getD b cell0 := by
    intro b hb
    rw [fdRowsOf,
      look_fdUpto_mono A B ec td0 i j _ (x0 + 1) (x0 + 1) b (le_refl _) hx2,
      look, fdUpto_fst_succ, happ _ _ (fdUpto_length A B ec td0 i j x0),
      rowUpto_getD_mono A B ec i j (A.lmd i - 1) (B.lmd j - 1) (x0 + 1) _ _
        (j - B.lmd j + 1) b hb]
  -- reads of an already completed row `a ≤ x0` go through the final table
  have hrowA : ∀ a b (hax : a ≤ x0) (R : List Cell),
      look ((fdUpto A B ec td0 i j x0).1 ++ [R]) a b
        = look (fdRowsOf A B ec td0 i j) a b := by
    intro a b hax R
    rw [look_append_left _ _ _ _ (by rw [fdUpto_length]; omega), fdRowsOf,
      look_fdUpto_mono A B ec td0 i j (i - A.lmd i + 1) a a b (le_refl _)
        (by omega),
      look_fdUpto_mono A B ec td0 i j x0 a a b (le_refl _) hax]
  -- reads of the row being built go through the final table as well
  have hrowB : ∀ b (hb : b ≤ y0),
      look ((fdUpto A B ec td0 i j x0).1
          ++ [(rowUpto A B ec i j (A.lmd i - 1) (B.lmd j - 1) (x0 + 1)
            ((fdUpto A B ec td0 i j x0).1) ((fdUpto A B ec td0 i j x0).2)
            y0).1]) (x0 + 1) b
        = look (fdRowsOf A B ec td0 i j) (x0 + 1) b := by
    intro b hb
    have hl : ((fdUpto A B ec td0 i j x0).1).length = x0 + 1 :=
      fdUpto_length A B ec td0 i j x0
    have hlast := look_append_last ((fdUpto A B ec td0 i j x0).1)
      ((rowUpto A B ec i j (A.lmd i - 1) (B.lmd j - 1) (x0 + 1)
        ((fdUpto A B ec td0 i j x0).1) ((fdUpto A B ec td0 i j x0).2)
        y0).1) b
    rw [hl] at hlast
    rw [hlast,
      rowUpto_getD_mono A B ec i j (A.lmd i - 1) (B.lmd j - 1) (x0 + 1) _ _
        y0 b hb, hmain b (by omega),
      rowUpto_getD_mono A B ec i j (A.lmd i - 1) (B.lmd j - 1) (x0 + 1) _ _
        b b (le_refl _)]
  -- the memoized treedists entry of the current cell is the entry at call
  -- start: earlier writes of this call target other coordinates
  have htd :
      tdGet ((rowUpto A B ec i j (A.lmd i - 1) (B.lmd j - 1) (x0 + 1)
          ((fdUpto A B ec td0 i j x0).1) ((fdUpto A B ec td0 i j x0).2)
          y0).2) (x0 + 1 + (A.lmd i - 1)) (y0 + 1 + (B.lmd j - 1))
        = tdGet td0 (x0 + 1 + (A.lmd i - 1)) (y0 + 1 + (B.lmd j - 1)) := by
    rw [rowUpto_td_agree A B ec i j (A.lmd i - 1) (B.lmd j - 1) (x0 + 1) _ _
        _ _ y0 (fun b hb1 hb2 _ hc => by omega)]
    exact fdUpto_td_agree A B ec td0 i j _ _ x0
      (fun a b ha1 ha2 hb1 hb2 _ hc => by omega)
  rw [hmain (y0 + 1) hy2, rowUpto_getD_last]
  simp only [Nat.add_sub_cancel]
  by_cases hcnd : A.lmd i = A.lmd (x0 + 1 + (A.lmd i - 1))
      ∧ B.lmd j = B.lmd (y0 + 1 + (B.lmd j - 1))
  · rw [if_pos hcnd, if_pos hcnd]
    rw [hrowA x0 (y0 + 1) (le_refl _) _, hrowB y0 (le_refl _),
      hrowA x0 y0 (le_refl _) _]
  · rw [if_neg hcnd, if_neg hcnd]
    rw [hrowA x0 (y0 + 1) (le_refl _) _, hrowB y0 (le_refl _),
      hrowA (A.lmd (x0 + 1 + (A.lmd i - 1)) - 1 - (A.lmd i - 1))
        (B.lmd (y0 + 1 + (B.lmd j - 1)) - 1 - (B.lmd j - 1)) (by omega) _,
      htd]

theorem look_oob (rows : List (List Cell)) (a b : Nat)
    (h : rows.length ≤ a) : look rows a b = cell0 := by
  rw [look, List.getD_eq_default _ _ h]
  rfl

theorem fdRows_look00 (A B : AnnT) (ec : EngineCosts) (td0 : TdTable)
    (i j : Nat) : look (fdRowsOf A B ec td0 i j) 0 0 = cell0 := by
  rw [fdRowsOf,
    look_fdUpto_mono A B ec td0 i j _ 0 0 0 (le_refl _) (Nat.zero_le _)]
  show (([row0Upto ec B (B.lmd j - 1) (j - B.lmd j + 1)].getD 0 []).getD 0
    cell0) = cell0
  rw [List.getD_cons_zero,
    row0Upto_getD_mono ec B (B.lmd j - 1) (j - B.lmd j + 1) 0 (Nat.zero_le _)]
  rfl

theorem listMin3_nonneg (a b c : ℚ) (ha : 0 ≤ a) (hb : 0 ≤ b) (hc : 0 ≤ c) :
    0 ≤ listMin [a, b, c] := by
  rw [listMin3]
  exact le_min ha (le_min hb hc)

theorem sameCell_fst (ec : EngineCosts) (n1 n2 : Node) (cl cu cd : Cell) :
    (sameCell ec n1 n2 cl cu cd).1
      = listMin [qadd cl.1 (ec.rem n1), qadd cu.1 (ec.ins n2),
          qadd cd.1 (ec.rel n1 n2)] := by
  simp only [sameCell]
  split_ifs <;> rfl

theorem elseCell_fst (ec : EngineCosts) (n1 n2 : Node) (cl cu cpq ctd : Cell) :
    (elseCell ec n1 n2 cl cu cpq ctd).1
      = listMin [qadd cl.1 (ec.rem n1), qadd cu.1 (ec.ins n2),
          qadd cpq.1 ctd.1] := by
  simp only [elseCell]
  split_ifs <;> rfl

theorem rowsNonneg_append (rows : List (List Cell)) (r : List Cell)
    (h1 : ∀ a b, 0 ≤ (look rows a b).1)
    (h2 : ∀ b, 0 ≤ (r.getD b cell0).1) :
    ∀ a b, 0 ≤ (look (rows ++ [r]) a b).1 := by
  intro a b
  rcases Nat.lt_trichotomy a rows.length with ha | ha | ha
  · rw [look_append_left _ _ _ _ ha]
    exact h1 a b
  · subst ha
    rw [look_append_last]
    exact h2 b
  · rw [look_oob _ _ _ (by rw [List.length_append]; simpa using ha)]
    norm_num [cell0]

theorem row0Upto_nonneg (ec : EngineCosts) (B : AnnT) (joff : Nat)
    (hins : ∀ n, 0 ≤ ec.ins n) :
    ∀ y b, 0 ≤ ((row0Upto ec B joff y).getD b cell0).1
  | 0, 0 => le_refl 0
  | 0, _ + 1 => le_refl 0
  | y + 1, b => by
    rcases Nat.lt_trichotomy b (y + 1) with hb | hb | hb
    · rw [row0Upto, List.getD_append _ _ _ _ (by rw [row0Upto_length]; omega)]
      exact row0Upto_nonneg ec B joff hins y b
    · subst hb
      rw [row0Upto_getD_last]
      show (0 : ℚ) ≤ qadd ((row0Upto ec B joff y).getD y cell0).1
        (ec.ins (B.node (y + 1 + joff)))
      rw [qadd_eq_add]
      exact add_nonneg (row0Upto_nonneg ec B joff hins y y) (hins _)
    · rw [List.getD_eq_default _ _ (by rw [row0Upto_length]; omega)]
      exact le_refl 0

theorem rowUpto_nonneg (A B : AnnT) (ec : EngineCosts)
    (i j ioff joff x : Nat) (rows : List (List Cell)) (td : TdTable)
    (hins : ∀ n, 0 ≤ ec.ins n) (hrem : ∀ n, 0 ≤ ec.rem n)
    (hrel : ∀ n1 n2, 0 ≤ ec.rel n1 n2)
    (hrows : ∀ a b, 0 ≤ (look rows a b).1)
    (htd : ∀ u v, 0 ≤ (tdGet td u v).1) :
    ∀ y, (∀ b, 0 ≤ (((rowUpto A B ec i j ioff joff x rows td y).1).getD b
        cell0).1)
      ∧ (∀ u v, 0 ≤ (tdGet ((rowUpto A B ec i j ioff joff x rows td y).2)
          u v).1)
  | 0 => by
    constructor
    · intro b
      match b with
      | 0 =>
        show (0 : ℚ) ≤ qadd (look rows (x - 1) 0).1
          (ec.rem (A.node (x + ioff)))
        rw [qadd_eq_add]
        exact add_nonneg (hrows _ _) (hrem _)
      | b + 1 => exact le_refl 0
    · exact htd
  | y + 1 => by
    obtain ⟨ihrow, ihtd⟩ :=
      rowUpto_nonneg A B ec i j ioff joff x rows td hins hrem hrel hrows htd y
    have hcur : ∀ a b,
        0 ≤ (look (rows ++ [(rowUpto A B ec i j ioff joff x rows td y).1])
          a b).1 :=
      rowsNonneg_append _ _ hrows ihrow
    have hcellS : ∀ n1 n2 cl cu cd, 0 ≤ cl.1 → 0 ≤ cu.1 → 0 ≤ cd.1 →
        0 ≤ (sameCell ec n1 n2 cl cu cd).1 := by
      intro n1 n2 cl cu cd h1 h2 h3
      rw [sameCell_fst]
      exact listMin3_nonneg _ _ _
        (by rw [qadd_eq_add]; exact add_nonneg h1 (hrem _))
        (by rw [qadd_eq_add]; exact add_nonneg h2 (hins _))
        (by rw [qadd_eq_add]; exact add_nonneg h3 (hrel _ _))
    have hcellE : ∀ n1 n2 cl cu cpq ctd, 0 ≤ cl.1 → 0 ≤ cu.1 → 0 ≤ cpq.1 →
        0 ≤ ctd.1 → 0 ≤ (elseCell ec n1 n2 cl cu cpq ctd).1 := by
      intro n1 n2 cl cu cpq ctd h1 h2 h3 h4
      rw [elseCell_fst]
      exact listMin3_nonneg _ _ _
        (by rw [qadd_eq_add]; exact add_nonneg h1 (hrem _))
        (by rw [qadd_eq_add]; exact add_nonneg h2 (hins _))
        (by rw [qadd_eq_add]; exact add_nonneg h3 h4)
    constructor
    · intro b
      rcases Nat.lt_trichotomy b (y + 1) with hb | hb | hb
      · obtain ⟨c, hc⟩ := rowUpto_fst_succ A B ec i j ioff joff x rows td y
        rw [hc, List.getD_append _ _ _ _ (by rw [rowUpto_length]; omega)]
        exact ihrow b
      · subst hb
        rw [rowUpto_getD_last]
        split_ifs with hcnd
        · exact hcellS _ _ _ _ _ (hcur _ _) (hcur _ _) (hcur _ _)
        · exact hcellE _ _ _ _ _ _ (hcur _ _) (hcur _ _) (hcur _ _)
            (ihtd _ _)
      · obtain ⟨c, hc⟩ := rowUpto_fst_succ A B ec i j ioff joff x rows td y
        rw [hc, List.getD_eq_default _ _ (by
          rw [List.length_append, rowUpto_length]
          simp only [List.length_singleton]
          omega)]
        exact le_refl 0
    · intro u v
      simp only [rowUpto]
      split_ifs with hcnd
      · rcases tdGet_tdSet_cases
            ((rowUpto A B ec i j ioff joff x rows td y).2) (x + ioff)
            (y + 1 + joff) u v _ with hcase | hcase
        · rw [hcase]
          exact hcellS _ _ _ _ _ (hcur _ _) (hcur _ _) (hcur _ _)
        · rw [hcase]
          exact ihtd u v
      · exact ihtd u v

theorem fdUpto_nonneg (A B : AnnT) (ec : EngineCosts) (td0 : TdTable)
    (i j : Nat) (hins : ∀ n, 0 ≤ ec.ins n) (hrem : ∀ n, 0 ≤ ec.rem n)
    (hrel : ∀ n1 n2, 0 ≤ ec.rel n1 n2)
    (htd : ∀ u v, 0 ≤ (tdGet td0 u v).1) :
    ∀ x, (∀ a b, 0 ≤ (look ((fdUpto A B ec td0 i j x).1) a b).1)
      ∧ (∀ u v, 0 ≤ (tdGet ((fdUpto A B ec td0 i j x).2) u v).1)
  | 0 => by
    constructor
    · intro a b
      rcases Nat.lt_or_ge a 1 with ha | ha
      · interval_cases a
        show 0 ≤ ((row0Upto ec B (B.lmd j - 1) (j - B.lmd j + 1)).getD b
          cell0).1
        exact row0Upto_nonneg ec B (B.lmd j - 1) hins (j - B.lmd j + 1) b
      · rw [look_oob _ _ _ (by simp [fdUpto, row0Upto_length]; omega)]
        exact le_refl 0
    · exact htd
  | x + 1 => by
    obtain ⟨ihrows, ihtd⟩ := fdUpto_nonneg A B ec td0 i j hins hrem hrel htd x
    obtain ⟨hrow, htd'⟩ := rowUpto_nonneg A B ec i j (A.lmd i - 1)
      (B.lmd j - 1) (x + 1) ((fdUpto A B ec td0 i j x).1)
      ((fdUpto A B ec td0 i j x).2) hins hrem hrel ihrows ihtd
      (j - B.lmd j + 1)
    constructor
    · intro a b
      rw [fdUpto_fst_succ]
      exact rowsNonneg_append _ _ ihrows hrow a b
    · intro u v
      rw [fdUpto_snd_succ]
      exact htd' u v

theorem fdRows_nonneg (A B : AnnT) (ec : EngineCosts) (td0 : TdTable)
    (i j : Nat) (hins : ∀ n, 0 ≤ ec.ins n) (hrem : ∀ n, 0 ≤ ec.rem n)
    (hrel : ∀ n1 n2, 0 ≤ ec.rel n1 n2)
    (htd : ∀ u v, 0 ≤ (tdGet td0 u v).1) :
    ∀ a b, 0 ≤ (look (fdRowsOf A B ec td0 i j) a b).1 := by
  intro a b
  rw [fdRowsOf]
  exact (fdUpto_nonneg A B ec td0 i j hins hrem hrel htd _).1 a b

theorem treedistStep_nonneg (A B : AnnT) (ec : EngineCosts) (td0 : TdTable)
    (i j : Nat) (hins : ∀ n, 0 ≤ ec.ins n) (hrem : ∀ n, 0 ≤ ec.rem n)
    (hrel : ∀ n1 n2, 0 ≤ ec.rel n1 n2)
    (htd : ∀ u v, 0 ≤ (tdGet td0 u v).1) :
    ∀ u v, 0 ≤ (tdGet (treedistStep A B ec td0 i j) u v).1 := by
  intro u v
  rw [treedistStep]
  exact (fdUpto_nonneg A B ec td0 i j hins hrem hrel htd _).2 u v

theorem rowUpto_td_shape (A B : AnnT) (ec : EngineCosts)
    (i j ioff joff x : Nat) (rows : List (List Cell)) (td : TdTable) :
    ∀ y, (((rowUpto A B ec i j ioff joff x rows td y).2).length = td.length)
      ∧ (∀ a, ((((rowUpto A B ec i j ioff joff x rows td y).2).getD a
          []).length) = ((td.getD a []).length))
  | 0 => ⟨rfl, fun _ => rfl⟩
  | y + 1 => by
    obtain ⟨ih1, ih2⟩ := rowUpto_td_shape A B ec i j ioff joff x rows td y
    simp only [rowUpto]
    split_ifs with hcnd
    · refine ⟨?_, ?_⟩
      · rw [tdSet_length]
        exact ih1
      · intro a
        rw [tdSet_row_length]
        exact ih2 a
    · exact ⟨ih1, ih2⟩

theorem fdUpto_td_shape (A B : AnnT) (ec : EngineCosts) (td0 : TdTable)
    (i j : Nat) :
    ∀ x, (((fdUpto A B ec td0 i j x).2).length = td0.length)
      ∧ (∀ a, ((((fdUpto A B ec td0 i j x).2).getD a []).length)
          = ((td0.getD a []).length))
  | 0 => ⟨rfl, fun _ => rfl⟩
  | x + 1 => by
    obtain ⟨ih1, ih2⟩ := fdUpto_td_shape A B ec td0 i j x
    obtain ⟨h1, h2⟩ := rowUpto_td_shape A B ec i j (A.lmd i - 1)
      (B.lmd j - 1) (x + 1) ((fdUpto A B ec td0 i j x).1)
      ((fdUpto A B ec td0 i j x).2) (j - B.lmd j + 1)
    rw [fdUpto_snd_succ]
    exact ⟨h1.trans ih1, fun a => (h2 a).trans (ih2 a)⟩

theorem look_fdUpto_succ_self (A B : AnnT) (ec : EngineCosts) (td0 : TdTable)
    (i j x b : Nat) (hb : b ≤ j - B.lmd j + 1) :
    look ((fdUpto A B ec td0 i j (x + 1)).1) (x + 1) b
      = ((rowUpto A B ec i j (A.lmd i - 1) (B.lmd j - 1) (x + 1)
          ((fdUpto A B ec td0 i j x).1) ((fdUpto A B ec td0 i j x).2)
          b).1).getD b cell0 := by
  have happ : ∀ (L : List (List Cell)) (R : List Cell),
      L.length = x + 1 → (L ++ [R]).getD (x + 1) [] = R := by
    intro L R h
    rw [← h, getD_append_length]
  rw [look, fdUpto_fst_succ, happ _ _ (fdUpto_length A B ec td0 i j x),
    rowUpto_getD_mono A B ec i j (A.lmd i - 1) (B.lmd j - 1) (x + 1) _ _
      (j - B.lmd j + 1) b hb]

theorem rowUpto_td_written (A B : AnnT) (ec : EngineCosts)
    (i j ioff joff x : Nat) (rows : List (List Cell)) (td : TdTable)
    (y' : Nat) (hy1 : 1 ≤ y')
    (hcnd : A.lmd i = A.lmd (x + ioff) ∧ B.lmd j = B.lmd (y' + joff))
    (hl1 : x + ioff < td.length)
    (hl2 : y' + joff < ((td.getD (x + ioff) []).length)) :
    ∀ y, y' ≤ y →
      tdGet ((rowUpto A B ec i j ioff joff x rows td y).2) (x + ioff)
        (y' + joff)
        = ((rowUpto A B ec i j ioff joff x rows td y').1).getD y' cell0
  | 0, h => absurd h (by omega)
  | y + 1, h => by
    rcases Nat.lt_or_ge y' (y + 1) with hy | hy
    · simp only [rowUpto]
      split_ifs with hcnd2
      · rw [tdGet_tdSet_ne _ _ _ _ _ _ (fun hc => by omega)]
        exact rowUpto_td_written A B ec i j ioff joff x rows td y' hy1 hcnd
          hl1 hl2 y (by omega)
      · exact rowUpto_td_written A B ec i j ioff joff x rows td y' hy1 hcnd
          hl1 hl2 y (by omega)
    · have hy'' : y' = y + 1 := by omega
      subst hy''
      simp only [rowUpto]
      rw [if_pos hcnd]
      dsimp only
      rw [tdGet_tdSet_self _ _ _ _
        (by rw [(rowUpto_td_shape A B ec i j ioff joff x rows td y).1]
            exact hl1)
        (by rw [(rowUpto_td_shape A B ec i j ioff joff x rows td y).2]
            exact hl2)]
      have happ2 : ∀ (L : List Cell) (c : Cell), L.length = y + 1 →
          (L ++ [c]).getD (y + 1) cell0 = c := by
        intro L c hL
        rw [← hL, getD_append_length]
      rw [happ2 _ _ (rowUpto_length A B ec i j ioff joff x rows td y)]

theorem fdUpto_td_written (A B : AnnT) (ec : EngineCosts) (td0 : TdTable)
    (i j : Nat) (x' y' : Nat) (hx1 : 1 ≤ x') (hy1 : 1 ≤ y')
    (hy2 : y' ≤ j - B.lmd j + 1)
    (hcnd : A.lmd i = A.lmd (x' + (A.lmd i - 1))
      ∧ B.lmd j = B.lmd (y' + (B.lmd j - 1)))
    (hl1 : x' + (A.lmd i - 1) < td0.length)
    (hl2 : y' + (B.lmd j - 1) < ((td0.getD (x' + (A.lmd i - 1)) []).length)) :
    ∀ x, x' ≤ x →
      tdGet ((fdUpto A B ec td0 i j x).2) (x' + (A.lmd i - 1))
        (y' + (B.lmd j - 1))
        = look ((fdUpto A B ec td0 i j x').1) x' y'
  | 0, h => absurd h (by omega)
  | x + 1, h => by
    rcases Nat.lt_or_ge x' (x + 1) with hx | hx
    · rw [fdUpto_snd_succ,
        rowUpto_td_agree A B ec i j (A.lmd i - 1) (B.lmd j - 1) (x + 1) _ _
          _ _ (j - B.lmd j + 1) (fun b hb1 hb2 hcnd2 hc => by omega)]
      exact fdUpto_td_written A B ec td0 i j x' y' hx1 hy1 hy2 hcnd hl1 hl2
        x (by omega)
    · have hx'' : x' = x + 1 := by omega
      subst hx''
      rw [fdUpto_snd_succ,
        rowUpto_td_written A B ec i j (A.lmd i - 1) (B.lmd j - 1) (x + 1)
          ((fdUpto A B ec td0 i j x).1) ((fdUpto A B ec td0 i j x).2) y' hy1
          hcnd
          (by rw [(fdUpto_td_shape A B ec td0 i j x).1]; exact hl1)
          (by rw [(fdUpto_td_shape A B ec td0 i j x).2]; exact hl2)
          (j - B.lmd j + 1) hy2,
        look_fdUpto_succ_self A B ec td0 i j x y' hy2]

theorem lmdsInv_nil (start : Nat) : lmdsInv start [] := by
  constructor
  · intro a ha
    simp at ha
  · intro a b hab hb
    simp at hb

theorem lmdsInv_append (start : Nat) (L1 L2 : List Nat)
    (h1 : lmdsInv start L1) (h2 : lmdsInv (start + L1.length) L2) :
    lmdsInv start (L1 ++ L2) := by
  constructor
  · intro a ha
    rw [List.length_append] at ha
    rcases Nat.lt_or_ge a L1.length with h | h
    · rw [List.getD_append _ _ _ _ h]
      exact h1.1 a h
    · rw [List.getD_append_right _ _ _ _ h]
      obtain ⟨hb1, hb2⟩ := h2.1 (a - L1.length) (by omega)
      omega
  · intro a b hab hb
    rw [List.length_append] at hb
    rcases Nat.lt_or_ge b L1.length with hbl | hbl
    · rw [List.getD_append _ _ _ _ hbl, List.getD_append _ _ _ _ (by omega)]
      exact h1.2 a b hab hbl
    · rw [List.getD_append_right _ _ _ _ hbl]
      rcases Nat.lt_or_ge a L1.length with hal | hal
      · right
        obtain ⟨hb1, _⟩ := h2.1 (b - L1.length) (by omega)
        omega
      · rw [List.getD_append_right _ _ _ _ hal]
        rcases h2.2 (a - L1.length) (b - L1.length) (by omega) (by omega)
          with h | h
        · exact Or.inl h
        · right
          omega

theorem lmdsInv_concat_root (start : Nat) (L1 : List Nat)
    (h1 : lmdsInv start L1) : lmdsInv start (L1 ++ [start]) := by
  constructor
  · intro a ha
    rw [List.length_append, List.length_singleton] at ha
    rcases Nat.lt_or_ge a L1.length with h | h
    · rw [List.getD_append _ _ _ _ h]
      exact h1.1 a h
    · have ha' : a = L1.length := by omega
      subst ha'
      rw [getD_append_length]
      omega
  · intro a b hab hb
    rw [List.length_append, List.length_singleton] at hb
    rcases Nat.lt_or_ge b L1.length with hbl | hbl
    · rw [List.getD_append _ _ _ _ hbl, List.getD_append _ _ _ _ (by omega)]
      exact h1.2 a b hab hbl
    · have hb' : b = L1.length := by omega
      subst hb'
      rw [getD_append_length, List.getD_append _ _ _ _ (by omega)]
      left
      exact (h1.1 a (by omega)).1

mutual

theorem lmdsNode_length : ∀ (start : Nat) (t : Node),
    (lmdsNode start t).length = countNode t
  | start, .mk l cs => by
    rw [lmdsNode, countNode, List.length_append, List.length_singleton,
      lmdsForest_length start cs]
    omega

theorem lmdsForest_length : ∀ (start : Nat) (cs : List Node),
    (lmdsForest start cs).length = countForest cs
  | _, [] => rfl
  | start, c :: cs => by
    rw [lmdsForest, countForest, List.length_append,
      lmdsNode_length start c, lmdsForest_length (start + countNode c) cs]

end

mutual

theorem lmdsNode_inv : ∀ (start : Nat) (t : Node),
    lmdsInv start (lmdsNode start t)
  | start, .mk l cs => by
    rw [lmdsNode]
    exact lmdsInv_concat_root start _ (lmdsForest_inv start cs)

theorem lmdsForest_inv : ∀ (start : Nat) (cs : List Node),
    lmdsInv start (lmdsForest start cs)
  | start, [] => lmdsInv_nil start
  | start, c :: cs => by
    rw [lmdsForest]
    refine lmdsInv_append start _ _ (lmdsNode_inv start c) ?_
    rw [lmdsNode_length start c]
    exact lmdsForest_inv (start + countNode c) cs

end

theorem mkAnnT_lmd_bounds (t : Node) (k : Nat) (h1 : 1 ≤ k)
    (h2 : k ≤ countNode t) :
    1 ≤ (mkAnnT t).lmd k ∧ (mkAnnT t).lmd k ≤ k := by
  have h := (lmdsNode_inv 1 t).1 (k - 1)
    (by rw [lmdsNode_length]; omega)
  show 1 ≤ (lmdsNode 1 t).getD (k - 1) 0
    ∧ (lmdsNode 1 t).getD (k - 1) 0 ≤ k
  omega

theorem mkAnnT_lmd_le (t : Node) (k : Nat) (h1 : 1 ≤ k) :
    (mkAnnT t).lmd k ≤ k := by
  rcases le_or_lt k (countNode t) with h | h
  · exact (mkAnnT_lmd_bounds t k h1 h).2
  · show (lmdsNode 1 t).getD (k - 1) 0 ≤ k
    rw [List.getD_eq_default _ _ (by rw [lmdsNode_length]; omega)]
    omega

theorem mkAnnT_lmd_interval (t : Node) (k m : Nat) (h1 : 1 ≤ k)
    (hkm : k < m) (hm : m ≤ countNode t) :
    (mkAnnT t).lmd m ≤ (mkAnnT t).lmd k ∨ k < (mkAnnT t).lmd m := by
  have h := (lmdsNode_inv 1 t).2 (k - 1) (m - 1) (by omega)
    (by rw [lmdsNode_length]; omega)
  show (lmdsNode 1 t).getD (m - 1) 0 ≤ (lmdsNode 1 t).getD (k - 1) 0
    ∨ k < (lmdsNode 1 t).getD (m - 1) 0
  omega

theorem mkAnnT_lmd_nested (t : Node) (k i : Nat) (hik : (mkAnnT t).lmd i ≤ k)
    (hki : k ≤ i) (hi : i ≤ countNode t) (h1 : 1 ≤ (mkAnnT t).lmd i) :
    (mkAnnT t).lmd i ≤ (mkAnnT t).lmd k := by
  rcases Nat.eq_or_lt_of_le hki with h | h
  · subst h
    exact le_refl _
  · rcases mkAnnT_lmd_interval t k i (by omega) h hi with hcase | hcase
    · exact hcase
    · omega

theorem mkAnnT_krs_mem (t : Node) (k : Nat) :
    k ∈ (mkAnnT t).krs
      ↔ 1 ≤ k ∧ k ≤ countNode t
        ∧ ∀ m, k < m → m ≤ countNode t →
            (mkAnnT t).lmd m ≠ (mkAnnT t).lmd k := by
  show k ∈ keyrootsOf (lmdsNode 1 t) (countNode t) ↔ _
  rw [keyrootsOf, List.mem_filter, List.mem_range]
  constructor
  · rintro ⟨hk, hfil⟩
    rw [Bool.and_eq_true, decide_eq_true_eq, List.all_eq_true] at hfil
    refine ⟨hfil.1, by omega, ?_⟩
    intro m hm1 hm2
    have hall := hfil.2 m (by rw [List.mem_range'_1]; omega)
    rw [decide_eq_true_eq] at hall
    exact hall
  · rintro ⟨h1, h2, h3⟩
    refine ⟨by omega, ?_⟩
    rw [Bool.and_eq_true, decide_eq_true_eq, List.all_eq_true]
    refine ⟨h1, ?_⟩
    intro m hm
    rw [List.mem_range'_1] at hm
    rw [decide_eq_true_eq]
    exact h3 m (by omega) (by omega)

theorem mkAnnT_krs_sorted (t : Node) : ((mkAnnT t).krs).Pairwise (· < ·) := by
  show (keyrootsOf (lmdsNode 1 t) (countNode t)).Pairwise (· < ·)
  rw [keyrootsOf]
  exact List.Pairwise.sublist (List.filter_sublist _)
    (List.pairwise_lt_range _)

theorem krs_bounds (t : Node) (k : Nat) (h : k ∈ (mkAnnT t).krs) :
    1 ≤ k ∧ k ≤ countNode t := by
  rw [mkAnnT_krs_mem] at h
  exact ⟨h.1, h.2.1⟩

theorem krs_distinct (t : Node) (a b : Nat) (ha : a ∈ (mkAnnT t).krs)
    (hb : b ∈ (mkAnnT t).krs) (hne : a ≠ b) :
    (mkAnnT t).lmd a ≠ (mkAnnT t).lmd b := by
  rcases lt_or_gt_of_ne hne with h | h
  · rw [mkAnnT_krs_mem] at ha
    exact Ne.symm (ha.2.2 b h (krs_bounds t b hb).2)
  · rw [mkAnnT_krs_mem] at hb
    exact hb.2.2 a h (krs_bounds t a ha).2

theorem root_mem_krs (t : Node) : countNode t ∈ (mkAnnT t).krs := by
  rw [mkAnnT_krs_mem]
  exact ⟨countNode_pos t, le_refl _, fun m hm1 hm2 => by omega⟩

theorem krOf_spec (T : AnnT) (k : Nat) (h1 : k ≤ T.size) :
    k ≤ krOf T k ∧ krOf T k ≤ T.size ∧ T.lmd (krOf T k) = T.lmd k := by
  have hs := Nat.findGreatest_spec (P := fun m => k ≤ m ∧ T.lmd m = T.lmd k)
    h1 ⟨le_refl k, rfl⟩
  exact ⟨hs.1, Nat.findGreatest_le _, hs.2⟩

theorem krOf_mem_krs (t : Node) (k : Nat) (h1 : 1 ≤ k)
    (h2 : k ≤ countNode t) : krOf (mkAnnT t) k ∈ (mkAnnT t).krs := by
  obtain ⟨ha, hb, hc⟩ := krOf_spec (mkAnnT t) k h2
  rw [mkAnnT_krs_mem]
  refine ⟨by omega, hb, ?_⟩
  intro m hm1 hm2 he
  exact Nat.findGreatest_is_greatest hm1 hm2 ⟨by omega, he.trans hc⟩

theorem krOf_lt (t : Node) (i k : Nat)
    (hne : (mkAnnT t).lmd k ≠ (mkAnnT t).lmd i)
    (hik : (mkAnnT t).lmd i ≤ k) (hki : k ≤ i) (hi : i ≤ countNode t)
    (h1 : 1 ≤ (mkAnnT t).lmd i) :
    krOf (mkAnnT t) k < i := by
  have hk1 : 1 ≤ k := by omega
  obtain ⟨ha, hb, hc⟩ := krOf_spec (mkAnnT t) k (le_trans hki hi)
  by_contra hcon
  push_neg at hcon
  have hnei : krOf (mkAnnT t) k ≠ i := fun he => hne (by rw [← hc, he])
  have hlt : i < krOf (mkAnnT t) k := by omega
  have hnest : (mkAnnT t).lmd i ≤ (mkAnnT t).lmd k :=
    mkAnnT_lmd_nested t k i hik hki hi h1
  have hkb := mkAnnT_lmd_le t k hk1
  rcases mkAnnT_lmd_interval t i (krOf (mkAnnT t) k) (by omega) hlt hb
    with hcase | hcase
  · rw [hc] at hcase
    omega
  · rw [hc] at hcase
    omega

theorem krOf_root (t : Node) : krOf (mkAnnT t) (countNode t) = countNode t := by
  obtain ⟨ha, hb, _⟩ := krOf_spec (mkAnnT t) (countNode t) (le_refl _)
  have hsz : (mkAnnT t).size = countNode t := rfl
  omega

theorem treedistStep_td_shape (A B : AnnT) (ec : EngineCosts) (td0 : TdTable)
    (i j : Nat) :
    ((treedistStep A B ec td0 i j).length = td0.length)
      ∧ (∀ a, (((treedistStep A B ec td0 i j).getD a []).length)
          = ((td0.getD a []).length)) := by
  rw [treedistStep]
  exact fdUpto_td_shape A B ec td0 i j _

theorem treedistStep_agree (A B : AnnT) (ec : EngineCosts) (td0 : TdTable)
    (i j u v : Nat)
    (h : ∀ a b, 1 ≤ a → a ≤ i - A.lmd i + 1 → 1 ≤ b → b ≤ j - B.lmd j + 1 →
      (A.lmd i = A.lmd (a + (A.lmd i - 1))
        ∧ B.lmd j = B.lmd (b + (B.lmd j - 1))) →
      ¬(u = a + (A.lmd i - 1) ∧ v = b + (B.lmd j - 1))) :
    tdGet (treedistStep A B ec td0 i j) u v = tdGet td0 u v := by
  rw [treedistStep]
  exact fdUpto_td_agree A B ec td0 i j u v _
    (fun a b ha1 ha2 hb1 hb2 hcnd => h a b ha1 ha2 hb1 hb2 hcnd)

theorem treedistStep_written (A B : AnnT) (ec : EngineCosts) (td0 : TdTable)
    (i j x' y' : Nat) (hx1 : 1 ≤ x') (hx2 : x' ≤ i - A.lmd i + 1)
    (hy1 : 1 ≤ y') (hy2 : y' ≤ j - B.lmd j + 1)
    (hcnd : A.lmd i = A.lmd (x' + (A.lmd i - 1))
      ∧ B.lmd j = B.lmd (y' + (B.lmd j - 1)))
    (hl1 : x' + (A.lmd i - 1) < td0.length)
    (hl2 : y' + (B.lmd j - 1) < ((td0.getD (x' + (A.lmd i - 1)) []).length)) :
    tdGet (treedistStep A B ec td0 i j) (x' + (A.lmd i - 1))
        (y' + (B.lmd j - 1))
      = look (fdRowsOf A B ec td0 i j) x' y' := by
  rw [treedistStep,
    fdUpto_td_written A B ec td0 i j x' y' hx1 hy1 hy2 hcnd hl1 hl2 _ hx2,
    fdRowsOf, look_fdUpto_mono A B ec td0 i j _ x' x' y' (le_refl _) hx2]

theorem initTable_get (A B : AnnT) (u v : Nat) :
    tdGet (initTable A B) u v = cell0 := by
  rw [tdGet, initTable]
  rcases Nat.lt_or_ge u (A.size + 1) with hu | hu
  · have hrow : (List.replicate (A.size + 1)
        (List.replicate (B.size + 1) cell0)).getD u []
        = List.replicate (B.size + 1) cell0 := by
      rw [List.getD_eq_getElem _ _ (by simpa using hu),
        List.getElem_replicate]
    rw [hrow]
    rcases Nat.lt_or_ge v (B.size + 1) with hv | hv
    · rw [List.getD_eq_getElem _ _ (by simpa using hv),
        List.getElem_replicate]
    · rw [List.getD_eq_default _ _ (by simpa using hv)]
  · have hrow : (List.replicate (A.size + 1)
        (List.replicate (B.size + 1) cell0)).getD u [] = [] :=
      List.getD_eq_default _ _ (by simpa using hu)
    rw [hrow]
    rfl

theorem initTable_length (A B : AnnT) :
    (initTable A B).length = A.size + 1 := by
  rw [initTable, List.length_replicate]

theorem initTable_row_length (A B : AnnT) (a : Nat) (h : a ≤ A.size) :
    ((initTable A B).getD a []).length = B.size + 1 := by
  rw [initTable, List.getD_eq_getElem _ _ (by simp; omega),
    List.getElem_replicate, List.length_replicate]

/-- Within the keyroot-pair call `(i, i)` of identical annotated trees, all
diagonal cells of the forest-distance table are zero, given that all
already-memoized diagonal `treedists` entries of strictly smaller keyroots
are zero. -/
theorem fd_diag_zero (t : Node) (ec : EngineCosts) (td0 : TdTable) (i : Nat)
    (hins : ∀ n, 0 ≤ ec.ins n) (hrem : ∀ n, 0 ≤ ec.rem n)
    (hrel : ∀ n1 n2, 0 ≤ ec.rel n1 n2) (hrel0 : ∀ n, ec.rel n n = 0)
    (hi1 : 1 ≤ i) (hi2 : i ≤ countNode t)
    (htdnn : ∀ u v, 0 ≤ (tdGet td0 u v).1)
    (hdiag : ∀ k, 1 ≤ k → k ≤ countNode t → krOf (mkAnnT t) k < i →
      (tdGet td0 k k).1 = 0) :
    ∀ x, x ≤ i - (mkAnnT t).lmd i + 1 →
      (look (fdRowsOf (mkAnnT t) (mkAnnT t) ec td0 i i) x x).1 = 0 := by
  intro x
  induction x using Nat.strong_induction_on with
  | _ x ih =>
    intro hx
    rcases Nat.eq_zero_or_pos x with rfl | hx1
    · rw [fdRows_look00]
      rfl
    · have hlmdi := mkAnnT_lmd_bounds t i hi1 hi2
      have hk : x + ((mkAnnT t).lmd i - 1) ≤ i := by omega
      have hk1 : 1 ≤ x + ((mkAnnT t).lmd i - 1) := by omega
      have hpa : (mkAnnT t).lmd (x + ((mkAnnT t).lmd i - 1))
          ≤ x + ((mkAnnT t).lmd i - 1) := mkAnnT_lmd_le t _ hk1
      have hFnn := fdRows_nonneg (mkAnnT t) (mkAnnT t) ec td0 i i hins hrem
        hrel htdnn
      have key : ∀ a b : ℚ, 0 ≤ a → 0 ≤ b → min a (min b 0) = 0 := by
        intro a b ha hb
        rw [min_eq_right hb, min_eq_right ha]
      rw [fd_cell (mkAnnT t) (mkAnnT t) ec td0 i i x x hx1 hx hx1 hx hpa]
      by_cases hP : (mkAnnT t).lmd i
          = (mkAnnT t).lmd (x + ((mkAnnT t).lmd i - 1))
      · rw [if_pos ⟨hP, hP⟩, sameCell_fst, listMin3]
        have hdval : (look (fdRowsOf (mkAnnT t) (mkAnnT t) ec td0 i i)
            (x - 1) (x - 1)).1 = 0 := ih (x - 1) (by omega) (by omega)
        have hzero : qadd (look (fdRowsOf (mkAnnT t) (mkAnnT t) ec td0 i i)
            (x - 1) (x - 1)).1
            (ec.rel ((mkAnnT t).node (x + ((mkAnnT t).lmd i - 1)))
              ((mkAnnT t).node (x + ((mkAnnT t).lmd i - 1)))) = 0 := by
          rw [qadd_eq_add, hdval, hrel0]
          norm_num
        rw [hzero]
        apply key
        · rw [qadd_eq_add]
          exact add_nonneg (hFnn _ _) (hrem _)
        · rw [qadd_eq_add]
          exact add_nonneg (hFnn _ _) (hins _)
      · rw [if_neg (fun hc => hP hc.1), elseCell_fst, listMin3]
        have hp : (mkAnnT t).lmd (x + ((mkAnnT t).lmd i - 1)) - 1
            - ((mkAnnT t).lmd i - 1) ≤ x - 1 := by omega
        have hploop : (look (fdRowsOf (mkAnnT t) (mkAnnT t) ec td0 i i)
            ((mkAnnT t).lmd (x + ((mkAnnT t).lmd i - 1)) - 1
              - ((mkAnnT t).lmd i - 1))
            ((mkAnnT t).lmd (x + ((mkAnnT t).lmd i - 1)) - 1
              - ((mkAnnT t).lmd i - 1))).1 = 0 :=
          ih _ (by omega) (by omega)
        have hlmdkne : (mkAnnT t).lmd (x + ((mkAnnT t).lmd i - 1))
            ≠ (mkAnnT t).lmd i := fun he => hP he.symm
        have hkr : krOf (mkAnnT t) (x + ((mkAnnT t).lmd i - 1)) < i :=
          krOf_lt t i (x + ((mkAnnT t).lmd i - 1)) hlmdkne (by omega) hk hi2
            hlmdi.1
        have htdv : (tdGet td0 (x + ((mkAnnT t).lmd i - 1))
            (x + ((mkAnnT t).lmd i - 1))).1 = 0 :=
          hdiag _ (by omega) (by omega) hkr
        have hzero : qadd (look (fdRowsOf (mkAnnT t) (mkAnnT t) ec td0 i i)
            ((mkAnnT t).lmd (x + ((mkAnnT t).lmd i - 1)) - 1
              - ((mkAnnT t).lmd i - 1))
            ((mkAnnT t).lmd (x + ((mkAnnT t).lmd i - 1)) - 1
              - ((mkAnnT t).lmd i - 1))).1
            (tdGet td0 (x + ((mkAnnT t).lmd i - 1))
              (x + ((mkAnnT t).lmd i - 1))).1 = 0 := by
          rw [qadd_eq_add, hploop, htdv]
          norm_num
        rw [hzero]
        apply key
        · rw [qadd_eq_add]
          exact add_nonneg (hFnn _ _) (hrem _)
        · rw [qadd_eq_add]
          exact add_nonneg (hFnn _ _) (hins _)

theorem step_diag_ne (t : Node) (ec : EngineCosts) (td : TdTable)
    (i j k : Nat) (hi : i ∈ (mkAnnT t).krs) (hj : j ∈ (mkAnnT t).krs)
    (hij : i ≠ j) :
    tdGet (treedistStep (mkAnnT t) (mkAnnT t) ec td i j) k k
      = tdGet td k k := by
  apply treedistStep_agree
  intro a b _ _ _ _ hcnd hco
  have h1 : (mkAnnT t).lmd i = (mkAnnT t).lmd k := by
    rw [hcnd.1, ← hco.1]
  have h2 : (mkAnnT t).lmd j = (mkAnnT t).lmd k := by
    rw [hcnd.2, ← hco.2]
  exact krs_distinct t i j hi hj hij (h1.trans h2.symm)

theorem step_self_diag (t : Node) (ec : EngineCosts) (td : TdTable) (i : Nat)
    (hins : ∀ n, 0 ≤ ec.ins n) (hrem : ∀ n, 0 ≤ ec.rem n)
    (hrel : ∀ n1 n2, 0 ≤ ec.rel n1 n2) (hrel0 : ∀ n, ec.rel n n = 0)
    (hi : i ∈ (mkAnnT t).krs)
    (hlen : td.length = countNode t + 1)
    (hrow : ∀ a, a ≤ countNode t → (td.getD a []).length = countNode t + 1)
    (htdnn : ∀ u v, 0 ≤ (tdGet td u v).1)
    (hdiag : ∀ k, 1 ≤ k → k ≤ countNode t → krOf (mkAnnT t) k < i →
      (tdGet td k k).1 = 0) :
    ∀ k, 1 ≤ k → k ≤ countNode t →
      (krOf (mkAnnT t) k < i
        ∨ ((mkAnnT t).lmd k = (mkAnnT t).lmd i ∧ k ≤ i)) →
      (tdGet (treedistStep (mkAnnT t) (mkAnnT t) ec td i i) k k).1 = 0 := by
  intro k hk1 hk2 hcase
  have hb := krs_bounds t i hi
  have hlmdi := mkAnnT_lmd_bounds t i hb.1 hb.2
  by_cases hW : (mkAnnT t).lmd k = (mkAnnT t).lmd i ∧ k ≤ i
  · have hlk : (mkAnnT t).lmd k ≤ k := mkAnnT_lmd_le t k hk1
    have hle : (mkAnnT t).lmd i ≤ k := hW.1 ▸ hlk
    have hco : (k - ((mkAnnT t).lmd i - 1)) + ((mkAnnT t).lmd i - 1)
        = k := by omega
    have hx1 : 1 ≤ k - ((mkAnnT t).lmd i - 1) := by omega
    have hx2 : k - ((mkAnnT t).lmd i - 1) ≤ i - (mkAnnT t).lmd i + 1 := by
      omega
    have hcnd : (mkAnnT t).lmd i
        = (mkAnnT t).lmd ((k - ((mkAnnT t).lmd i - 1))
          + ((mkAnnT t).lmd i - 1)) := by
      rw [hco]
      exact hW.1.symm
    rw [← hco]
    rw [treedistStep_written (mkAnnT t) (mkAnnT t) ec td i i _ _ hx1 hx2
      hx1 hx2 ⟨hcnd, hcnd⟩ (by rw [hco, hlen]; omega)
      (by rw [hco, hrow k hk2]; omega)]
    exact fd_diag_zero t ec td i hins hrem hrel hrel0 hb.1 hb.2 htdnn hdiag
      _ hx2
  · have hkr : krOf (mkAnnT t) k < i := by
      rcases hcase with h | h
      · exact h
      · exact absurd h hW
    rw [treedistStep_agree]
    · exact hdiag k hk1 hk2 hkr
    · intro a b ha1 ha2 hb1 hb2 hcnd hco
      apply hW
      refine ⟨?_, ?_⟩
      · rw [hco.1]
        exact hcnd.1.symm
      · omega

theorem innerFold_cons (t : Node) (ec : EngineCosts) (i j : Nat)
    (js : List Nat) (td : TdTable) :
    innerFold t ec i (j :: js) td
      = innerFold t ec i js (treedistStep (mkAnnT t) (mkAnnT t) ec td i j) := by
  rw [innerFold, innerFold, List.foldl_cons]

theorem innerFold_inv (t : Node) (ec : EngineCosts) (i : Nat)
    (hins : ∀ n, 0 ≤ ec.ins n) (hrem : ∀ n, 0 ≤ ec.rem n)
    (hrel : ∀ n1 n2, 0 ≤ ec.rel n1 n2) (hrel0 : ∀ n, ec.rel n n = 0)
    (hi : i ∈ (mkAnnT t).krs) :
    ∀ (js : List Nat), (∀ j, j ∈ js → j ∈ (mkAnnT t).krs) →
    ∀ (td : TdTable), TdShape t td → TdNonneg td → DiagDone t i td →
      TdShape t (innerFold t ec i js td)
      ∧ TdNonneg (innerFold t ec i js td)
      ∧ DiagDone t i (innerFold t ec i js td)
      ∧ ((DiagAt t i td ∨ i ∈ js) → DiagAt t i (innerFold t ec i js td)) := by
  intro js
  induction js with
  | nil =>
    intro _ td hsh hnn hdd
    refine ⟨hsh, hnn, hdd, ?_⟩
    intro hd
    rcases hd with h | h
    · exact h
    · exact absurd h (List.not_mem_nil i)
  | cons j js ih =>
    intro hjs td hsh hnn hdd
    have hjk : j ∈ (mkAnnT t).krs := hjs j (List.mem_cons_self j js)
    have hstep_sh : TdShape t (treedistStep (mkAnnT t) (mkAnnT t) ec td i j) := by
      obtain ⟨h1, h2⟩ := treedistStep_td_shape (mkAnnT t) (mkAnnT t) ec td i j
      exact ⟨by rw [h1]; exact hsh.1, fun a ha => by rw [h2 a]; exact hsh.2 a ha⟩
    have hstep_nn : TdNonneg (treedistStep (mkAnnT t) (mkAnnT t) ec td i j) :=
      treedistStep_nonneg (mkAnnT t) (mkAnnT t) ec td i j hins hrem hrel hnn
    have hstep_dd : DiagDone t i (treedistStep (mkAnnT t) (mkAnnT t) ec td i j) := by
      by_cases hji : j = i
      · subst hji
        intro k hk1 hk2 hkr
        exact step_self_diag t ec td j hins hrem hrel hrel0 hjk hsh.1 hsh.2
          hnn hdd k hk1 hk2 (Or.inl hkr)
      · intro k hk1 hk2 hkr
        rw [step_diag_ne t ec td i j k hi hjk (fun he => hji he.symm)]
        exact hdd k hk1 hk2 hkr
    have hrec := ih (fun j' hj' => hjs j' (List.mem_cons_of_mem j hj'))
      (treedistStep (mkAnnT t) (mkAnnT t) ec td i j) hstep_sh hstep_nn hstep_dd
    rw [innerFold_cons]
    refine ⟨hrec.1, hrec.2.1, hrec.2.2.1, ?_⟩
    intro hd
    apply hrec.2.2.2
    rcases hd with hda | hmem
    · left
      by_cases hji : j = i
      · subst hji
        intro k hk1 hk2 hlmd hki
        exact step_self_diag t ec td j hins hrem hrel hrel0 hjk hsh.1 hsh.2
          hnn hdd k hk1 hk2 (Or.inr ⟨hlmd, hki⟩)
      · intro k hk1 hk2 hlmd hki
        rw [step_diag_ne t ec td i j k hi hjk (fun he => hji he.symm)]
        exact hda k hk1 hk2 hlmd hki
    · rcases List.mem_cons.mp hmem with he | hmem'
      · left
        subst he
        intro k hk1 hk2 hlmd hki
        exact step_self_diag t ec td i hins hrem hrel hrel0 hjk hsh.1 hsh.2
          hnn hdd k hk1 hk2 (Or.inr ⟨hlmd, hki⟩)
      · right
        exact hmem'

theorem outerFold_inv (t : Node) (ec : EngineCosts)
    (hins : ∀ n, 0 ≤ ec.ins n) (hrem : ∀ n, 0 ≤ ec.rem n)
    (hrel : ∀ n1 n2, 0 ≤ ec.rel n1 n2) (hrel0 : ∀ n, ec.rel n n = 0) :
    ∀ (is done : List Nat) (td : TdTable),
      (mkAnnT t).krs = done ++ is →
      TdShape t td → TdNonneg td → DiagMem t done td →
      TdShape t (outerFold t ec is td) ∧ TdNonneg (outerFold t ec is td)
      ∧ DiagMem t (done ++ is) (outerFold t ec is td) := by
  intro is
  induction is with
  | nil =>
    intro done td hkrs hsh hnn hdm
    refine ⟨hsh, hnn, ?_⟩
    rw [List.append_nil]
    exact hdm
  | cons i is ih =>
    intro done td hkrs hsh hnn hdm
    have hik : i ∈ (mkAnnT t).krs := by
      rw [hkrs]
      exact List.mem_append_right done (List.mem_cons_self i is)
    have hsort := mkAnnT_krs_sorted t
    rw [hkrs, List.pairwise_append] at hsort
    have hdone_lt : ∀ a, a ∈ done → a < i := fun a ha =>
      hsort.2.2 a ha i (List.mem_cons_self i is)
    have his_gt : ∀ b, b ∈ is → i < b :=
      (List.pairwise_cons.mp hsort.2.1).1
    have hdd : DiagDone t i td := by
      intro k hk1 hk2 hkr
      apply hdm k hk1 hk2
      have hmem : krOf (mkAnnT t) k ∈ (mkAnnT t).krs := krOf_mem_krs t k hk1 hk2
      rw [hkrs] at hmem
      rcases List.mem_append.mp hmem with h | h
      · exact h
      · rcases List.mem_cons.mp h with he | h'
        · omega
        · exact absurd (his_gt _ h') (by omega)
    have hinner := innerFold_inv t ec i hins hrem hrel hrel0 hik
      ((mkAnnT t).krs) (fun _ h => h) td hsh hnn hdd
    have hda : DiagAt t i (innerFold t ec i ((mkAnnT t).krs) td) :=
      hinner.2.2.2 (Or.inr hik)
    have hdm' : DiagMem t (done ++ [i])
        (innerFold t ec i ((mkAnnT t).krs) td) := by
      intro k hk1 hk2 hkr
      rcases List.mem_append.mp hkr with h | h
      · exact hinner.2.2.1 k hk1 hk2 (hdone_lt _ h)
      · have he : krOf (mkAnnT t) k = i := by simpa using h
        obtain ⟨ha, _, hc⟩ := krOf_spec (mkAnnT t) k hk2
        have hlm : (mkAnnT t).lmd k = (mkAnnT t).lmd i := by
          rw [← he]
          exact hc.symm
        exact hda k hk1 hk2 hlm (by omega)
    have hrec := ih (done ++ [i]) (innerFold t ec i ((mkAnnT t).krs) td)
      (by rw [hkrs, List.append_assoc, List.singleton_append])
      hinner.1 hinner.2.1 hdm'
    have hunf : outerFold t ec (i :: is) td
        = outerFold t ec is (innerFold t ec i ((mkAnnT t).krs) td) := by
      rw [outerFold, outerFold, List.foldl_cons]
    rw [hunf]
    refine ⟨hrec.1, hrec.2.1, ?_⟩
    rw [show done ++ i :: is = (done ++ [i]) ++ is by
      rw [List.append_assoc, List.singleton_append]]
    exact hrec.2.2

theorem runTreedists_diag_zero (t : Node) (ec : EngineCosts)
    (hins : ∀ n, 0 ≤ ec.ins n) (hrem : ∀ n, 0 ≤ ec.rem n)
    (hrel : ∀ n1 n2, 0 ≤ ec.rel n1 n2) (hrel0 : ∀ n, ec.rel n n = 0) :
    (tdGet (runTreedists (mkAnnT t) (mkAnnT t) ec)
      (countNode t) (countNode t)).1 = 0 := by
  have hinit_sh : TdShape t (initTable (mkAnnT t) (mkAnnT t)) := by
    refine ⟨initTable_length (mkAnnT t) (mkAnnT t), ?_⟩
    intro a ha
    exact initTable_row_length (mkAnnT t) (mkAnnT t) a ha
  have hinit_nn : TdNonneg (initTable (mkAnnT t) (mkAnnT t)) := by
    intro u v
    rw [initTable_get]
    exact le_refl 0
  have hinit_dm : DiagMem t [] (initTable (mkAnnT t) (mkAnnT t)) := by
    intro k _ _ hk
    exact absurd hk (List.not_mem_nil _)
  have h := outerFold_inv t ec hins hrem hrel hrel0 ((mkAnnT t).krs) []
    (initTable (mkAnnT t) (mkAnnT t)) (by rw [List.nil_append]) hinit_sh
    hinit_nn hinit_dm
  have hrun : runTreedists (mkAnnT t) (mkAnnT t) ec
      = outerFold t ec ((mkAnnT t).krs) (initTable (mkAnnT t) (mkAnnT t)) :=
    rfl
  rw [hrun]
  apply h.2.2 (countNode t) (countNode_pos t) (le_refl _)
  rw [List.nil_append, krOf_root]
  exact root_mem_krs t

theorem relabelCost_nonneg (cm : CostModel) (cer : JVal → JVal → ℚ)
    (hupd : ∀ a b, 0 ≤ cm.updateCost a b) (hcer : ∀ x y, 0 ≤ cer x y) :
    ∀ n1 n2, 0 ≤ relabelCost cm cer n1 n2 := by
  intro n1 n2
  rw [relabelCost]
  split_ifs with h
  · rw [qmul_eq_mul]
    apply mul_nonneg (le_of_lt h)
    rw [pymin]
    split_ifs
    · exact hcer _ _
    · norm_num
  · exact hupd _ _

theorem relabelCost_refl (cm : CostModel) (cer : JVal → JVal → ℚ)
    (hupd0 : ∀ a b : Node, a.label = b.label → cm.updateCost a b = 0) :
    ∀ n, relabelCost cm cer n n = 0 := by
  intro n
  rw [relabelCost, hupd0 n n rfl]
  rw [if_neg (lt_irrefl 0)]

/-- C7: for every tree `T`, the distance of `T` against itself is `0` and
`tree_error_rate(T, T)` is `0`, in both the plain and the CER-weighted
(`substring_bonus`) mode, given that the update cost of an equal-label node
pair is `0` (with the costs and the CER weighting nonnegative, as every
cost model of the spec is). -/
theorem C7_self_comparison_zero (t : Node) (cm : CostModel)
    (cer ld : JVal → JVal → ℚ)
    (hupd0 : ∀ a b : Node, a.label = b.label → cm.updateCost a b = 0)
    (hins : ∀ n, 0 ≤ cm.insertCost n) (hrem : ∀ n, 0 ≤ cm.removeCost n)
    (hupd : ∀ a b, 0 ≤ cm.updateCost a b) (hcer : ∀ x y, 0 ≤ cer x y)
    (hld0 : ∀ x, ld x x = 0) (hldnn : ∀ x y, 0 ≤ ld x y) :
    (distance_with_cer t t cm cer false).scalar = 0
    ∧ simple_distance t t = 0
    ∧ tree_error_rate (some t) (some t) true ld cer false = .ok 0
    ∧ tree_error_rate (some t) (some t) false ld cer false = .ok 0 := by
  have hd : ∀ cm' : CostModel, (∀ n, 0 ≤ cm'.insertCost n) →
      (∀ n, 0 ≤ cm'.removeCost n) → (∀ a b, 0 ≤ cm'.updateCost a b) →
      (∀ a b : Node, a.label = b.label → cm'.updateCost a b = 0) →
      distance_with_cer t t cm' cer false = .dist 0 := by
    intro cm' h1 h2 h3 h4
    have he : distance_with_cer t t cm' cer false
        = .dist ((tdGet (runTreedists (mkAnnT t) (mkAnnT t)
          ⟨cm'.insertCost, cm'.removeCost, relabelCost cm' cer⟩)
          (mkAnnT t).size (mkAnnT t).size).1) := rfl
    rw [he]
    exact congrArg TedResult.dist
      (runTreedists_diag_zero t _ h1 h2
        (relabelCost_nonneg cm' cer h3 hcer)
        (relabelCost_refl cm' cer h4))
  have hsimple : simple_distance t t = 0 := by
    have he : simple_distance t t
        = (tdGet (runTreedists (mkAnnT t) (mkAnnT t)
          ⟨unitCostModel.insertCost, unitCostModel.removeCost,
            unitCostModel.updateCost⟩)
          (mkAnnT t).size (mkAnnT t).size).1 := rfl
    rw [he]
    exact runTreedists_diag_zero t _
      (fun n => by
        show (0 : ℚ) ≤ 1
        norm_num)
      (fun n => by
        show (0 : ℚ) ≤ 1
        norm_num)
      (fun n1 n2 => by
        show (0 : ℚ) ≤ if n1.label = n2.label then 0 else 1
        split_ifs <;> norm_num)
      (fun n => by
        show (if n.label = n.label then (0 : ℚ) else 1) = 0
        rw [if_pos rfl])
  have hc : count_nodes (some t) ≠ 0 := by
    show countNode t ≠ 0
    have := countNode_pos t
    omega
  refine ⟨?_, hsimple, ?_, ?_⟩
  · rw [hd cm hins hrem hupd hupd0]
    rfl
  · have hq := hd (cmOfLabelDist ld)
      (fun n => hldnn (.str "") n.label)
      (fun n => hldnn n.label (.str ""))
      (fun a b => hldnn a.label b.label)
      (fun a b h => by
        show ld a.label b.label = 0
        rw [h]
        exact hld0 _)
    have hopt : distance_with_cerOpt (some t) (some t) (cmOfLabelDist ld)
        cer false = .ok (.dist 0) := by
      show Except.ok (distance_with_cer t t (cmOfLabelDist ld) cer false)
        = Except.ok (TedResult.dist 0)
      rw [hq]
    have he : tree_error_rate (some t) (some t) true ld cer false
        = (match distance_with_cerOpt (some t) (some t) (cmOfLabelDist ld)
            cer false with
          | .error e => Except.error e
          | .ok (.distOps _ _) => Except.error PyErr.typeError
          | .ok (.dist d) =>
            if count_nodes (some t) = 0 then
              Except.error PyErr.zeroDivisionError
            else Except.ok (d / (count_nodes (some t) : ℚ))) := rfl
    rw [he, hopt]
    show (if count_nodes (some t) = 0 then
        Except.error PyErr.zeroDivisionError
      else Except.ok ((0 : ℚ) / (count_nodes (some t) : ℚ))) = Except.ok 0
    rw [if_neg hc, zero_div]
  · have he : tree_error_rate (some t) (some t) false ld cer false
        = (if count_nodes (some t) = 0 then
            Except.error PyErr.zeroDivisionError
          else Except.ok (simple_distance t t
            / (count_nodes (some t) : ℚ))) := rfl
    rw [he, if_neg hc, hsimple, zero_div]

/-- Closed instance of C7 on the single-node tree `leafA` under the unit
cost model, constant CER and the 0/1 fallback label distance. -/
theorem C7_witness :
    (∀ a b : Node, a.label = b.label → unitCostModel.updateCost a b = 0)
    ∧ ((distance_with_cer leafA leafA unitCostModel cerOne false).scalar = 0
      ∧ simple_distance leafA leafA = 0
      ∧ tree_error_rate (some leafA) (some leafA) true strdist cerOne false
          = .ok 0
      ∧ tree_error_rate (some leafA) (some leafA) false strdist cerOne false
          = .ok 0) :=
  ⟨fun a b h => by
    show (if a.label = b.label then (0 : ℚ) else 1) = 0
    rw [if_pos h],
   C7_self_comparison_zero leafA unitCostModel cerOne strdist
    (fun a b h => by
      show (if a.label = b.label then (0 : ℚ) else 1) = 0
      rw [if_pos h])
    (fun n => by
      show (0 : ℚ) ≤ 1
      norm_num)
    (fun n => by
      show (0 : ℚ) ≤ 1
      norm_num)
    (fun a b => by
      show (0 : ℚ) ≤ if a.label = b.label then 0 else 1
      split_ifs <;> norm_num)
    (fun x y => by
      show (0 : ℚ) ≤ 1
      norm_num)
    (fun x => by
      show (if x = x then (0 : ℚ) else 1) = 0
      rw [if_pos rfl])
    (fun x y => by
      show (0 : ℚ) ≤ if x = y then 0 else 1
      split_ifs <;> norm_num)⟩

/-- C3 (amended): within a keyroot pair `(i, j)`, a forest-distance cell
`(x, y)` is a true tree-edit-distance cell (min of remove, insert and
relabel over the three adjacent cells) exactly when BOTH the left-most
descendant of `x`'s underlying node equals that of keyroot `i` AND the
left-most descendant of `y`'s underlying node equals that of keyroot `j`
(the code's condition is the conjunction, not the `x`-side alone);
otherwise the third branch adds the memoized tree distance
`treedists[x+ioff][y+joff]` to the forest distance at the subtree boundary
positions `(p, q)` instead of recomputing a relabel. -/
theorem C3_amended_condition (a b : Node) (ec : EngineCosts) (td0 : TdTable)
    (i j x y : Nat) (hx1 : 1 ≤ x) (hx2 : x ≤ i - (mkAnnT a).lmd i + 1)
    (hy1 : 1 ≤ y) (hy2 : y ≤ j - (mkAnnT b).lmd j + 1) :
    look (fdRowsOf (mkAnnT a) (mkAnnT b) ec td0 i j) x y
      = if (mkAnnT a).lmd i = (mkAnnT a).lmd (x + ((mkAnnT a).lmd i - 1))
            ∧ (mkAnnT b).lmd j = (mkAnnT b).lmd (y + ((mkAnnT b).lmd j - 1))
        then
          sameCell ec ((mkAnnT a).node (x + ((mkAnnT a).lmd i - 1)))
            ((mkAnnT b).node (y + ((mkAnnT b).lmd j - 1)))
            (look (fdRowsOf (mkAnnT a) (mkAnnT b) ec td0 i j) (x - 1) y)
            (look (fdRowsOf (mkAnnT a) (mkAnnT b) ec td0 i j) x (y - 1))
            (look (fdRowsOf (mkAnnT a) (mkAnnT b) ec td0 i j) (x - 1) (y - 1))
        else
          elseCell ec ((mkAnnT a).node (x + ((mkAnnT a).lmd i - 1)))
            ((mkAnnT b).node (y + ((mkAnnT b).lmd j - 1)))
            (look (fdRowsOf (mkAnnT a) (mkAnnT b) ec td0 i j) (x - 1) y)
            (look (fdRowsOf (mkAnnT a) (mkAnnT b) ec td0 i j) x (y - 1))
            (look (fdRowsOf (mkAnnT a) (mkAnnT b) ec td0 i j)
              ((mkAnnT a).lmd (x + ((mkAnnT a).lmd i - 1)) - 1
                - ((mkAnnT a).lmd i - 1))
              ((mkAnnT b).lmd (y + ((mkAnnT b).lmd j - 1)) - 1
                - ((mkAnnT b).lmd j - 1)))
            (tdGet td0 (x + ((mkAnnT a).lmd i - 1))
              (y + ((mkAnnT b).lmd j - 1))) :=
  fd_cell (mkAnnT a) (mkAnnT b) ec td0 i j x y hx1 hx2 hy1 hy2
    (mkAnnT_lmd_le a (x + ((mkAnnT a).lmd i - 1)) (by omega))

/-- Closed instance of the amended C3 on `cexA` vs `cexB`, keyroot pair
`(2, 4)`, cell `(1, 1)` (a same-lineage cell whose value evaluates to a
match of the two `P` leaves, cost `0`). -/
theorem C3_amended_witness :
    ((1 ≤ 1) ∧ (1 ≤ 2 - (mkAnnT cexA).lmd 2 + 1)
      ∧ (1 ≤ 4 - (mkAnnT cexB).lmd 4 + 1))
    ∧ (look (fdRowsOf (mkAnnT cexA) (mkAnnT cexB) unitEc
        (initTable (mkAnnT cexA) (mkAnnT cexB)) 2 4) 1 1).1 = 0 := by
  refine ⟨⟨by decide, by decide, by decide⟩, ?_⟩
  rw [C3_amended_condition cexA cexB unitEc
    (initTable (mkAnnT cexA) (mkAnnT cexB)) 2 4 1 1
    (by decide) (by decide) (by decide) (by decide)]
  decide

end ZssJson
